import Mathlib

/-!
Shallow embedding of the catalog reconciliation and verification engine of
`mamecheck.py`. A catalog (the "rom map") is an insertion-ordered
association list from item name to item record, mirroring the Python
dictionaries built by `create_romfile_map`. The three reconciliation
conventions (`nonmerged`, `merged`, `split`) and the verifier
(`check_roms`) are translated directly from the source; printed
diagnostics become values of the `Warning` type, and the exception that an
unreadable zip raises becomes the `Except.error` branch of the verifier.
-/

/-- Diagnostics that the Python code emits with `print` while reconciling:
a digest incoherency between a parent and a clone for one rom name, or a
clone whose declared parent is not present in the map. -/
inductive Warning where
  | digestConflict (parent_name cur_name rom_name : String)
  | danglingParent (cur_name parent_name : String)
deriving DecidableEq, Repr

/-- One item record of the rom map, as built by `get_game_romset`: the
optional `romof` attribute (parent reference), presence of the `isbios`
attribute, and the dict from rom name to sha1 digest. -/
structure Romset where
  romof : Option String
  isbios : Bool
  rom_digests : List (String × String)
deriving DecidableEq, Repr

/-- The rom map: item name to item record, in insertion order. -/
abbrev RomMap := List (String × Romset)

/-- First-match association list lookup, the model of Python dict
indexing and `in` tests (keys are unique in dicts built by the loader). -/
def alookup {α : Type} : List (String × α) → String → Option α
  | [], _ => none
  | e :: t, k => if e.1 = k then some e.2 else alookup t k

/-- Replace the value at the first entry holding key `k`; models
assignment to an existing dict key (position preserved). -/
def aupdate {α : Type} : List (String × α) → String → α → List (String × α)
  | [], _, _ => []
  | e :: t, k, v => if e.1 = k then (k, v) :: t else e :: aupdate t k v

/-- Remove every entry holding key `k`; models `del d[k]` on a dict with
unique keys. -/
def aerase {α : Type} : List (String × α) → String → List (String × α)
  | [], _ => []
  | e :: t, k => if e.1 = k then aerase t k else e :: aerase t k

/-- The inner loop of `create_merged_checklist`: fold the clone digests
into the parent digest dict. A rom absent from the parent is appended (new
dict key at the end); a rom present with a different digest yields an
incoherency warning and the parent entry is left untouched. -/
def merge_digests (parent_name cur_name : String) :
    List (String × String) → List (String × String) →
    List (String × String) × List Warning
  | pd, [] => (pd, [])
  | pd, (rn, rd) :: t =>
    match alookup pd rn with
    | none => merge_digests parent_name cur_name (pd ++ [(rn, rd)]) t
    | some d =>
      let rest := merge_digests parent_name cur_name pd t
      (rest.1,
        (if d ≠ rd then [Warning.digestConflict parent_name cur_name rn] else []) ++ rest.2)

/-- State threaded through the loop of `create_merged_checklist`: the rom
map being mutated in place, the deferred `delete_list`, and the warnings
printed so far. -/
structure MState where
  map : RomMap
  delete_list : List String
  warnings : List Warning

/-- One iteration of the loop of `create_merged_checklist`, for the key
`cur_name` of the original map: skip items without `romof`; warn on a
dangling parent; skip items whose parent carries `isbios`; otherwise merge
the clone digests into the parent and defer deletion of the clone. -/
def merged_step (st : MState) (cur_name : String) : MState :=
  match alookup st.map cur_name with
  | none => st
  | some cur =>
    match cur.romof with
    | none => st
    | some parent_name =>
      match alookup st.map parent_name with
      | none =>
        { st with warnings := st.warnings ++ [Warning.danglingParent cur_name parent_name] }
      | some parent_romset =>
        if parent_romset.isbios then st
        else
          let md := merge_digests parent_name cur_name parent_romset.rom_digests cur.rom_digests
          { map := aupdate st.map parent_name { parent_romset with rom_digests := md.1 },
            delete_list := st.delete_list ++ [cur_name],
            warnings := st.warnings ++ md.2 }

/-- `create_merged_checklist`: iterate over the keys of the map (dict
iteration order; the key set is unchanged during the loop because
deletions are deferred), then delete every clone collected in
`delete_list`. Returns the reconciled map and the warnings printed. -/
def create_merged_checklist (rom_map : RomMap) : RomMap × List Warning :=
  let st := (rom_map.map Prod.fst).foldl merged_step ⟨rom_map, [], []⟩
  (st.delete_list.foldl aerase st.map, st.warnings)

/-- The inner loop of `create_split_checklist`: walk the parent digest
dict and delete from the clone every rom name the parent holds, warning
first when the digests differ. -/
def strip_digests (parent_name cur_name : String) :
    List (String × String) → List (String × String) →
    List (String × String) × List Warning
  | [], cd => (cd, [])
  | (prn, prd) :: pt, cd =>
    match alookup cd prn with
    | none => strip_digests parent_name cur_name pt cd
    | some d =>
      let rest := strip_digests parent_name cur_name pt (aerase cd prn)
      (rest.1,
        (if d ≠ prd then [Warning.digestConflict parent_name cur_name prn] else []) ++ rest.2)

/-- One iteration of the loop of `create_split_checklist` for key
`cur_name`: skip items without `romof`; warn on a dangling parent;
otherwise delete from the clone every rom the parent currently holds. -/
def split_step (st : RomMap × List Warning) (cur_name : String) : RomMap × List Warning :=
  match alookup st.1 cur_name with
  | none => st
  | some cur =>
    match cur.romof with
    | none => st
    | some parent_name =>
      match alookup st.1 parent_name with
      | none => (st.1, st.2 ++ [Warning.danglingParent cur_name parent_name])
      | some parent_romset =>
        let sd := strip_digests parent_name cur_name parent_romset.rom_digests cur.rom_digests
        (aupdate st.1 cur_name { cur with rom_digests := sd.1 }, st.2 ++ sd.2)

/-- `create_split_checklist`: iterate over the keys of the map in dict
order, modifying clone digest dicts in place. -/
def create_split_checklist (rom_map : RomMap) : RomMap × List Warning :=
  (rom_map.map Prod.fst).foldl split_step (rom_map, [])

/-- `create_romfile_checklist`: dispatch on the set type; `nonmerged`
leaves the map untouched. -/
def create_romfile_checklist (rom_map : RomMap) (set_type : String) : RomMap × List Warning :=
  let r1 := if set_type = "merged" then create_merged_checklist rom_map else (rom_map, [])
  let r2 := if set_type = "split" then create_split_checklist r1.1 else (r1.1, [])
  (r2.1, r1.2 ++ r2.2)

/-- What the archive store can yield for one item name: no zip file in
the rom directory, a zip file whose opening or reading raises (the
uncaught exception carries a message), or the member digest dict that
`get_zip_member_digests` computes. -/
inductive ZipContent where
  | absent
  | unreadable (msg : String)
  | readable (digests : List (String × String))

/-- The `stats` dictionary assembled by `check_roms`. `bad_files` is a
Python set; it is modelled as a duplicate-free list in insertion order,
which carries the same membership information. -/
structure Stats where
  missing_files : List String
  bad_files : List String
  missing_roms : List (String × List String)
  bad_roms : List (String × List (String × String × String))
deriving DecidableEq, Repr

/-- `stats[...].setdefault(k, list()).append(x)`. -/
def appendAt {α : Type} (m : List (String × List α)) (k : String) (x : α) :
    List (String × List α) :=
  match alookup m k with
  | none => m ++ [(k, [x])]
  | some l => aupdate m k (l ++ [x])

/-- `stats[...].add(x)` on a set modelled as a duplicate-free list. -/
def setAdd (s : List String) (x : String) : List String :=
  if x ∈ s then s else s ++ [x]

/-- The body of the member loop of `check_roms`: a rom missing from the
zip goes to `missing_roms`, a rom present with a digest different from
the expected one goes to `bad_roms` as the tuple
(rom name, digest found in the zip, digest expected by the datfile) —
exactly the tuple order the source appends. -/
def check_member (zip_digests : List (String × String)) (zip_name : String)
    (st : Stats) (rom_name digest : String) : Stats :=
  match alookup zip_digests rom_name with
  | none =>
    { st with missing_roms := appendAt st.missing_roms zip_name rom_name,
              bad_files := setAdd st.bad_files zip_name }
  | some actual =>
    if digest ≠ actual then
      { st with bad_roms := appendAt st.bad_roms zip_name (rom_name, actual, digest),
                bad_files := setAdd st.bad_files zip_name }
    else st

/-- One iteration of `check_roms` for the item `zip_name`: an absent zip
is recorded in `missing_files`; an unreadable zip raises, aborting the
whole run; otherwise every expected rom is checked against the zip
digests. The rom map is threaded through unchanged, as the source only
reads it. -/
def check_step (store : String → ZipContent) (acc : Except String (RomMap × Stats))
    (zip_name : String) : Except String (RomMap × Stats) :=
  match acc with
  | .error e => .error e
  | .ok (m, st) =>
    match store zip_name with
    | .absent => .ok (m, { st with missing_files := st.missing_files ++ [zip_name] })
    | .unreadable e => .error e
    | .readable zip_digests =>
      match alookup m zip_name with
      | none => .ok (m, st)
      | some rs =>
        .ok (m, rs.rom_digests.foldl (fun s p => check_member zip_digests zip_name s p.1 p.2) st)

/-- `check_roms`: iterate over the items of the checklist in dict order,
classifying each against the store; an unreadable zip propagates as an
error that ends the run. -/
def check_roms (rom_map : RomMap) (store : String → ZipContent) :
    Except String (RomMap × Stats) :=
  (rom_map.map Prod.fst).foldl (check_step store) (Except.ok (rom_map, ⟨[], [], [], []⟩))

/-! ## Association list lemmas -/

theorem alookup_append_some {α : Type} {l1 l2 : List (String × α)} {k : String} {v : α}
    (h : alookup l1 k = some v) : alookup (l1 ++ l2) k = some v := by
  induction l1 with
  | nil => simp [alookup] at h
  | cons e t ih =>
    rw [alookup] at h
    rw [List.cons_append, alookup]
    by_cases he : e.1 = k
    · simpa [he] using h
    · rw [if_neg he] at h ⊢
      exact ih h

theorem alookup_append_none {α : Type} {l1 l2 : List (String × α)} {k : String}
    (h : alookup l1 k = none) : alookup (l1 ++ l2) k = alookup l2 k := by
  induction l1 with
  | nil => simp
  | cons e t ih =>
    rw [alookup] at h
    rw [List.cons_append, alookup]
    by_cases he : e.1 = k
    · simp [he] at h
    · rw [if_neg he] at h ⊢
      exact ih h

theorem alookup_mem {α : Type} {l : List (String × α)} {k : String} {v : α}
    (h : alookup l k = some v) : (k, v) ∈ l := by
  induction l with
  | nil => simp [alookup] at h
  | cons e t ih =>
    obtain ⟨a, b⟩ := e
    by_cases he : a = k
    · subst he
      simp [alookup] at h
      subst h
      exact List.mem_cons_self _ _
    · simp only [alookup, he, if_false, if_neg he] at h
      exact List.mem_cons_of_mem _ (ih h)

theorem mem_alookup_isSome {α : Type} {l : List (String × α)} {e : String × α}
    (h : e ∈ l) : ∃ w, alookup l e.1 = some w := by
  induction l with
  | nil => simp at h
  | cons f t ih =>
    rw [alookup]
    by_cases hf : f.1 = e.1
    · exact ⟨f.2, by rw [if_pos hf]⟩
    · rw [if_neg hf]
      rcases List.mem_cons.mp h with rfl | hm
      · exact absurd rfl hf
      · exact ih hm

theorem alookup_some_mem_keys {α : Type} {l : List (String × α)} {k : String} {v : α}
    (h : alookup l k = some v) : k ∈ l.map Prod.fst := by
  have := alookup_mem h
  exact List.mem_map.mpr ⟨(k, v), this, rfl⟩

theorem alookup_eq_none_of_not_mem_keys {α : Type} {l : List (String × α)} {k : String}
    (h : k ∉ l.map Prod.fst) : alookup l k = none := by
  induction l with
  | nil => rfl
  | cons e t ih =>
    rw [alookup]
    by_cases he : e.1 = k
    · exact absurd (List.mem_map.mpr ⟨e, List.mem_cons_self .., he⟩) h
    · rw [if_neg he]
      exact ih (fun hm => h (List.mem_map.mpr (by
        obtain ⟨f, hf, rfl⟩ := List.mem_map.mp hm
        exact ⟨f, List.mem_cons_of_mem _ hf, rfl⟩)))

theorem alookup_aupdate {α : Type} (l : List (String × α)) (k n : String) (v : α) :
    alookup (aupdate l k v) n =
      if n = k then (alookup l k).map (fun _ => v) else alookup l n := by
  induction l with
  | nil => by_cases h : n = k <;> simp [aupdate, alookup, h]
  | cons e t ih =>
    obtain ⟨a, b⟩ := e
    by_cases hak : a = k
    · subst hak
      by_cases hn : n = a
      · subst hn
        simp [aupdate, alookup]
      · have han : ¬ a = n := fun h => hn h.symm
        simp [aupdate, alookup, hn, han]
    · by_cases han : a = n
      · subst han
        have hnk : ¬ a = k := hak
        simp [aupdate, alookup, hak, hnk]
      · simp [aupdate, alookup, hak, han, ih]

theorem aupdate_of_alookup_none {α : Type} {l : List (String × α)} {k : String}
    (h : alookup l k = none) (v : α) : aupdate l k v = l := by
  induction l with
  | nil => rfl
  | cons e t ih =>
    rw [alookup] at h
    by_cases he : e.1 = k
    · simp [he] at h
    · rw [if_neg he] at h
      rw [aupdate, if_neg he, ih h]

theorem aupdate_self_eq {α : Type} {l : List (String × α)} {k : String} {v : α}
    (h : alookup l k = some v) : aupdate l k v = l := by
  induction l with
  | nil => simp [alookup] at h
  | cons e t ih =>
    rw [alookup] at h
    by_cases he : e.1 = k
    · rw [if_pos he] at h
      rw [aupdate, if_pos he]
      obtain ⟨a, b⟩ := e
      obtain rfl : a = k := he
      obtain rfl : b = v := by simpa using h
      rfl
    · rw [if_neg he] at h
      rw [aupdate, if_neg he, ih h]

theorem alookup_aerase {α : Type} (l : List (String × α)) (k n : String) :
    alookup (aerase l k) n = if n = k then none else alookup l n := by
  induction l with
  | nil => by_cases h : n = k <;> simp [aerase, alookup, h]
  | cons e t ih =>
    rw [aerase]
    by_cases he : e.1 = k
    · rw [if_pos he, ih]
      by_cases hn : n = k
      · rw [if_pos hn, if_pos hn]
      · rw [if_neg hn, if_neg hn, alookup, if_neg (fun hh : e.1 = n => hn (by rw [← hh, he]))]
    · rw [if_neg he, alookup]
      by_cases hn : e.1 = n
      · rw [if_pos hn]
        have : ¬ n = k := fun hh => he (hn.symm ▸ hh)
        rw [if_neg this, alookup, if_pos hn]
      · rw [if_neg hn, ih, alookup, if_neg hn]

theorem mem_of_mem_aerase {α : Type} {l : List (String × α)} {k : String} {e : String × α}
    (h : e ∈ aerase l k) : e ∈ l := by
  induction l with
  | nil => simp [aerase] at h
  | cons f t ih =>
    rw [aerase] at h
    by_cases hf : f.1 = k
    · rw [if_pos hf] at h
      exact List.mem_cons_of_mem _ (ih h)
    · rw [if_neg hf] at h
      rcases List.mem_cons.mp h with rfl | hm
      · exact List.mem_cons_self ..
      · exact List.mem_cons_of_mem _ (ih hm)

theorem erase_fold_alookup (dl : List String) :
    ∀ (S : RomMap) (n : String),
      alookup (dl.foldl aerase S) n = if n ∈ dl then none else alookup S n := by
  induction dl with
  | nil => intro S n; simp
  | cons d t ih =>
    intro S n
    rw [List.foldl_cons, ih]
    by_cases hn : n ∈ t
    · simp [hn]
    · rw [if_neg hn, alookup_aerase]
      by_cases hd : n = d
      · simp [hd]
      · rw [if_neg hd, if_neg (by simp [hd, hn])]

/-! ## Lemmas about `merge_digests` -/

theorem merge_digests_preserves (pn cn : String) :
    ∀ (cd pd : List (String × String)) (rn v : String),
      alookup pd rn = some v → alookup (merge_digests pn cn pd cd).1 rn = some v := by
  intro cd
  induction cd with
  | nil => intro pd rn v h; simpa [merge_digests] using h
  | cons e t ih =>
    intro pd rn v h
    obtain ⟨crn, crd⟩ := e
    rw [merge_digests]
    cases hpd : alookup pd crn with
    | none => exact ih _ _ _ (alookup_append_some h)
    | some d => exact ih _ _ _ h

theorem merge_digests_covers (pn cn : String) :
    ∀ (cd pd : List (String × String)) (rn v : String),
      alookup cd rn = some v → ∃ w, alookup (merge_digests pn cn pd cd).1 rn = some w := by
  intro cd
  induction cd with
  | nil => intro pd rn v h; simp [alookup] at h
  | cons e t ih =>
    intro pd rn v h
    obtain ⟨crn, crd⟩ := e
    rw [merge_digests]
    cases hpd : alookup pd crn with
    | none =>
      by_cases hr : crn = rn
      · subst hr
        have hx : alookup (pd ++ [(crn, crd)]) crn = some crd := by
          rw [alookup_append_none hpd]; simp [alookup]
        exact ⟨crd, merge_digests_preserves pn cn t _ _ _ hx⟩
      · have ht : alookup t rn = some v := by simpa [alookup, hr] using h
        exact ih _ _ _ ht
    | some d =>
      by_cases hr : crn = rn
      · subst hr
        exact ⟨d, merge_digests_preserves pn cn t pd _ _ hpd⟩
      · have ht : alookup t rn = some v := by simpa [alookup, hr] using h
        exact ih pd _ _ ht

theorem merge_digests_conflict (pn cn : String) :
    ∀ (cd pd : List (String × String)) (rn d dc : String),
      alookup pd rn = some d → alookup cd rn = some dc → d ≠ dc →
      Warning.digestConflict pn cn rn ∈ (merge_digests pn cn pd cd).2 := by
  intro cd
  induction cd with
  | nil => intro pd rn d dc hp hc hne; simp [alookup] at hc
  | cons e t ih =>
    intro pd rn d dc hp hc hne
    obtain ⟨crn, crd⟩ := e
    rw [merge_digests]
    by_cases hr : crn = rn
    · subst hr
      have hdc : crd = dc := by simpa [alookup] using hc
      subst hdc
      rw [hp]
      simp [hne]
    · have ht : alookup t rn = some dc := by simpa [alookup, hr] using hc
      cases hpd : alookup pd crn with
      | none => exact ih _ _ _ _ (alookup_append_some hp) ht hne
      | some dd =>
        simp only []
        exact List.mem_append.mpr (Or.inr (ih pd _ _ _ hp ht hne))

/-! ## Preservation relation along the merged fold -/

/-- Every digest entry of `x` survives, with the same value, in `y`. -/
def DigestsLe (x y : List (String × String)) : Prop :=
  ∀ rn v, alookup x rn = some v → alookup y rn = some v

/-- Facts preserved from one rom map to a later state of the merged
reconciliation: key presence is unchanged, `romof` and `isbios` are
unchanged, and digest entries are never removed or overwritten. -/
structure MPres (a b : RomMap) : Prop where
  look : ∀ n x, alookup a n = some x →
    ∃ y, alookup b n = some y ∧ y.romof = x.romof ∧ y.isbios = x.isbios ∧
      DigestsLe x.rom_digests y.rom_digests
  nonep : ∀ n, alookup a n = none → alookup b n = none

theorem mpres_refl (a : RomMap) : MPres a a :=
  ⟨fun _ x h => ⟨x, h, rfl, rfl, fun _ _ hv => hv⟩, fun _ h => h⟩

theorem mpres_trans {a b c : RomMap} (h1 : MPres a b) (h2 : MPres b c) : MPres a c := by
  constructor
  · intro n x hx
    obtain ⟨y, hy, hro, hbi, hdl⟩ := h1.look n x hx
    obtain ⟨z, hz, hro2, hbi2, hdl2⟩ := h2.look n y hy
    exact ⟨z, hz, hro2.trans hro, hbi2.trans hbi, fun rn v hv => hdl2 rn v (hdl rn v hv)⟩
  · intro n hn
    exact h2.nonep n (h1.nonep n hn)

/-! ## Branch equations for `merged_step` -/

theorem merged_step_eq_skip {st : MState} {k : String}
    (hc : alookup st.map k = none) : merged_step st k = st := by
  unfold merged_step
  rw [hc]

theorem merged_step_eq_root {st : MState} {k : String} {cur : Romset}
    (hc : alookup st.map k = some cur) (hro : cur.romof = none) :
    merged_step st k = st := by
  unfold merged_step
  rw [hc]; dsimp only
  rw [hro]

theorem merged_step_eq_dangling {st : MState} {k pn : String} {cur : Romset}
    (hc : alookup st.map k = some cur) (hro : cur.romof = some pn)
    (hp : alookup st.map pn = none) :
    merged_step st k =
      { st with warnings := st.warnings ++ [Warning.danglingParent k pn] } := by
  unfold merged_step
  rw [hc]; dsimp only
  rw [hro]; dsimp only
  rw [hp]

theorem merged_step_eq_bios {st : MState} {k pn : String} {cur parent : Romset}
    (hc : alookup st.map k = some cur) (hro : cur.romof = some pn)
    (hp : alookup st.map pn = some parent) (hb : parent.isbios = true) :
    merged_step st k = st := by
  unfold merged_step
  rw [hc]; dsimp only
  rw [hro]; dsimp only
  rw [hp]; dsimp only
  rw [hb]
  rfl

theorem merged_step_eq_merge {st : MState} {k pn : String} {cur parent : Romset}
    (hc : alookup st.map k = some cur) (hro : cur.romof = some pn)
    (hp : alookup st.map pn = some parent) (hb : parent.isbios = false) :
    merged_step st k =
      { map := aupdate st.map pn
          { parent with rom_digests := (merge_digests pn k parent.rom_digests cur.rom_digests).1 },
        delete_list := st.delete_list ++ [k],
        warnings := st.warnings ++ (merge_digests pn k parent.rom_digests cur.rom_digests).2 } := by
  unfold merged_step
  rw [hc]; dsimp only
  rw [hro]; dsimp only
  rw [hp]; dsimp only
  rw [hb]
  rfl

/-! ## Step and fold preservation for the merged reconciliation -/

theorem merged_step_mpres (st : MState) (k : String) :
    MPres st.map (merged_step st k).map := by
  cases hc : alookup st.map k with
  | none => rw [merged_step_eq_skip hc]; exact mpres_refl _
  | some cur =>
    cases hro : cur.romof with
    | none => rw [merged_step_eq_root hc hro]; exact mpres_refl _
    | some pn =>
      cases hp : alookup st.map pn with
      | none => rw [merged_step_eq_dangling hc hro hp]; exact mpres_refl _
      | some parent =>
        cases hb : parent.isbios with
        | true => rw [merged_step_eq_bios hc hro hp hb]; exact mpres_refl _
        | false =>
          rw [merged_step_eq_merge hc hro hp hb]
          constructor
          · intro n x hx
            by_cases hn : n = pn
            · have hxp : x = parent := by
                have hx2 := hx
                rw [hn] at hx2
                rw [hx2] at hp
                exact Option.some.inj hp
              rw [hxp]
              refine ⟨{ parent with
                  rom_digests := (merge_digests pn k parent.rom_digests cur.rom_digests).1 },
                ?_, rfl, rfl, ?_⟩
              · rw [alookup_aupdate, if_pos hn, hp]
                rfl
              · intro rn v hv
                exact merge_digests_preserves pn k _ _ rn v hv
            · refine ⟨x, ?_, rfl, rfl, fun _ _ hv => hv⟩
              rw [alookup_aupdate, if_neg hn]
              exact hx
          · intro n hn
            rw [alookup_aupdate]
            by_cases hnp : n = pn
            · subst hnp
              rw [hn] at hp
              cases hp
            · rw [if_neg hnp]
              exact hn

theorem merged_step_dl_suffix (st : MState) (k : String) :
    ∃ l, (merged_step st k).delete_list = st.delete_list ++ l := by
  cases hc : alookup st.map k with
  | none => exact ⟨[], by rw [merged_step_eq_skip hc]; simp⟩
  | some cur =>
    cases hro : cur.romof with
    | none => exact ⟨[], by rw [merged_step_eq_root hc hro]; simp⟩
    | some pn =>
      cases hp : alookup st.map pn with
      | none => exact ⟨[], by rw [merged_step_eq_dangling hc hro hp]; simp⟩
      | some parent =>
        cases hb : parent.isbios with
        | true => exact ⟨[], by rw [merged_step_eq_bios hc hro hp hb]; simp⟩
        | false => exact ⟨[k], by rw [merged_step_eq_merge hc hro hp hb]⟩

theorem merged_step_ws_suffix (st : MState) (k : String) :
    ∃ l, (merged_step st k).warnings = st.warnings ++ l := by
  cases hc : alookup st.map k with
  | none => exact ⟨[], by rw [merged_step_eq_skip hc]; simp⟩
  | some cur =>
    cases hro : cur.romof with
    | none => exact ⟨[], by rw [merged_step_eq_root hc hro]; simp⟩
    | some pn =>
      cases hp : alookup st.map pn with
      | none =>
        exact ⟨[Warning.danglingParent k pn], by rw [merged_step_eq_dangling hc hro hp]⟩
      | some parent =>
        cases hb : parent.isbios with
        | true => exact ⟨[], by rw [merged_step_eq_bios hc hro hp hb]; simp⟩
        | false =>
          exact ⟨(merge_digests pn k parent.rom_digests cur.rom_digests).2,
            by rw [merged_step_eq_merge hc hro hp hb]⟩

theorem merged_fold_mpres (keys : List String) :
    ∀ st : MState, MPres st.map ((keys.foldl merged_step st).map) := by
  induction keys with
  | nil => intro st; exact mpres_refl _
  | cons k t ih =>
    intro st
    rw [List.foldl_cons]
    exact mpres_trans (merged_step_mpres st k) (ih (merged_step st k))

theorem merged_fold_dl_mem (keys : List String) :
    ∀ (st : MState) (n : String), n ∈ st.delete_list →
      n ∈ ((keys.foldl merged_step st).delete_list) := by
  induction keys with
  | nil => intro st n h; exact h
  | cons k t ih =>
    intro st n h
    rw [List.foldl_cons]
    obtain ⟨l, hl⟩ := merged_step_dl_suffix st k
    exact ih _ n (by rw [hl]; exact List.mem_append_left _ h)

theorem merged_fold_ws_mem (keys : List String) :
    ∀ (st : MState) (w : Warning), w ∈ st.warnings →
      w ∈ ((keys.foldl merged_step st).warnings) := by
  induction keys with
  | nil => intro st w h; exact h
  | cons k t ih =>
    intro st w h
    rw [List.foldl_cons]
    obtain ⟨l, hl⟩ := merged_step_ws_suffix st k
    exact ih _ w (by rw [hl]; exact List.mem_append_left _ h)

/-- Every name on the delete list refers, in the current map, to an item
that declares a parent. -/
def DlOk (st : MState) : Prop :=
  ∀ n ∈ st.delete_list, ∃ x p, alookup st.map n = some x ∧ x.romof = some p

theorem merged_step_dlok {st : MState} (k : String) (h : DlOk st) : DlOk (merged_step st k) := by
  have pres := merged_step_mpres st k
  cases hc : alookup st.map k with
  | none => rw [merged_step_eq_skip hc]; exact h
  | some cur =>
    cases hro : cur.romof with
    | none => rw [merged_step_eq_root hc hro]; exact h
    | some pn =>
      cases hp : alookup st.map pn with
      | none =>
        rw [merged_step_eq_dangling hc hro hp]
        intro n hn
        exact h n hn
      | some parent =>
        cases hb : parent.isbios with
        | true => rw [merged_step_eq_bios hc hro hp hb]; exact h
        | false =>
          intro n hn
          rw [merged_step_eq_merge hc hro hp hb] at hn ⊢
          simp only [List.mem_append, List.mem_singleton] at hn
          rcases hn with hn | rfl
          · obtain ⟨x, p, hx, hxp⟩ := h n hn
            obtain ⟨y, hy, hyro, _, _⟩ := pres.look n x hx
            rw [merged_step_eq_merge hc hro hp hb] at hy
            exact ⟨y, p, hy, by rw [hyro, hxp]⟩
          · obtain ⟨y, hy, hyro, _, _⟩ := pres.look n cur hc
            rw [merged_step_eq_merge hc hro hp hb] at hy
            exact ⟨y, pn, hy, by rw [hyro, hro]⟩

theorem merged_fold_dlok (keys : List String) :
    ∀ st : MState, DlOk st → DlOk (keys.foldl merged_step st) := by
  induction keys with
  | nil => intro st h; exact h
  | cons k t ih =>
    intro st h
    rw [List.foldl_cons]
    exact ih _ (merged_step_dlok k h)

theorem create_merged_eq_fold (m : RomMap) :
    create_merged_checklist m =
      (((m.map Prod.fst).foldl merged_step ⟨m, [], []⟩).delete_list.foldl aerase
         ((m.map Prod.fst).foldl merged_step ⟨m, [], []⟩).map,
       ((m.map Prod.fst).foldl merged_step ⟨m, [], []⟩).warnings) := rfl

/-- Core facts about one resolvable clone under the merged convention,
when its parent is not a bios and is itself a root: the clone is deleted
from the reconciled map; the parent survives with `romof` and `isbios`
unchanged, keeps every one of its original digest entries unchanged, and
holds an entry for every rom of the clone; and every digest mismatch
between parent and clone is reported. -/
theorem merged_run_core (m : RomMap) {c p : String} {crs prs : Romset}
    (hc : alookup m c = some crs) (hro : crs.romof = some p)
    (hp : alookup m p = some prs) (hbios : prs.isbios = false)
    (hroot : prs.romof = none) :
    alookup (create_merged_checklist m).1 c = none ∧
    (∃ q, alookup (create_merged_checklist m).1 p = some q ∧
       q.romof = none ∧ q.isbios = false ∧
       DigestsLe prs.rom_digests q.rom_digests ∧
       (∀ rn v, alookup crs.rom_digests rn = some v → (alookup q.rom_digests rn).isSome)) ∧
    (∀ rn d dc, alookup prs.rom_digests rn = some d → alookup crs.rom_digests rn = some dc →
       d ≠ dc → Warning.digestConflict p c rn ∈ (create_merged_checklist m).2) := by
  obtain ⟨l1, l2, hsplit⟩ := List.append_of_mem (alookup_some_mem_keys hc)
  set st0 : MState := (⟨m, [], []⟩ : MState) with hst0
  set st1 := l1.foldl merged_step st0 with hst1
  set st2 := merged_step st1 c with hst2
  set S := l2.foldl merged_step st2 with hSdef
  have hSfold : (m.map Prod.fst).foldl merged_step st0 = S := by
    rw [hsplit, List.foldl_append, List.foldl_cons]
  have pres1 : MPres m st1.map := merged_fold_mpres l1 st0
  obtain ⟨c1, hc1, hc1ro, hc1bi, hc1dl⟩ := pres1.look c crs hc
  obtain ⟨p1, hp1, hp1ro, hp1bi, hp1dl⟩ := pres1.look p prs hp
  have hc1p : c1.romof = some p := by rw [hc1ro, hro]
  have hp1b : p1.isbios = false := by rw [hp1bi, hbios]
  have hstep := merged_step_eq_merge hc1 hc1p hp1 hp1b
  have hmap2 : st2.map = aupdate st1.map p
      { p1 with rom_digests := (merge_digests p c p1.rom_digests c1.rom_digests).1 } := by
    rw [hst2, hstep]
  have hdl2 : st2.delete_list = st1.delete_list ++ [c] := by rw [hst2, hstep]
  have hws2 : st2.warnings = st1.warnings ++
      (merge_digests p c p1.rom_digests c1.rom_digests).2 := by rw [hst2, hstep]
  have pres2 : MPres st2.map S.map := merged_fold_mpres l2 st2
  have hp2 : alookup st2.map p = some
      { p1 with rom_digests := (merge_digests p c p1.rom_digests c1.rom_digests).1 } := by
    rw [hmap2, alookup_aupdate, if_pos rfl, hp1]
    rfl
  obtain ⟨q, hq, hqro, hqbi, hqdl⟩ := pres2.look p _ hp2
  have presS : MPres m S.map := by
    have := merged_fold_mpres (m.map Prod.fst) st0
    rwa [hSfold] at this
  have dlokS : DlOk S := by
    have h0 : DlOk st0 := by
      intro n hn
      simp [hst0] at hn
    have := merged_fold_dlok (m.map Prod.fst) st0 h0
    rwa [hSfold] at this
  have hcdl : c ∈ S.delete_list := by
    refine merged_fold_dl_mem l2 st2 c ?_
    rw [hdl2]
    exact List.mem_append_right _ (by simp)
  have hpdl : p ∉ S.delete_list := by
    intro hmem
    obtain ⟨x, qq, hx, hxro⟩ := dlokS p hmem
    obtain ⟨y, hy, hyro, _, _⟩ := presS.look p prs hp
    rw [hx] at hy
    rw [Option.some.inj hy, hyro, hroot] at hxro
    cases hxro
  have hcm : create_merged_checklist m = (S.delete_list.foldl aerase S.map, S.warnings) := by
    rw [create_merged_eq_fold, hSfold]
  refine ⟨?_, ⟨q, ?_, ?_, ?_, ?_, ?_⟩, ?_⟩
  · rw [hcm]
    dsimp only
    rw [erase_fold_alookup, if_pos hcdl]
  · rw [hcm]
    dsimp only
    rw [erase_fold_alookup, if_neg hpdl]
    exact hq
  · rw [hqro]
    dsimp only
    rw [hp1ro, hroot]
  · rw [hqbi]
    dsimp only
    rw [hp1bi, hbios]
  · intro rn v hv
    exact hqdl rn v (merge_digests_preserves p c _ _ rn v (hp1dl rn v hv))
  · intro rn v hv
    obtain ⟨w, hw⟩ := merge_digests_covers p c c1.rom_digests p1.rom_digests rn v
      (hc1dl rn v hv)
    rw [hqdl rn w hw]
    rfl
  · intro rn d dc h1 h2 hne
    have hm := merge_digests_conflict p c c1.rom_digests p1.rom_digests rn d dc
      (hp1dl rn d h1) (hc1dl rn dc h2) hne
    have hin2 : Warning.digestConflict p c rn ∈ st2.warnings := by
      rw [hws2]
      exact List.mem_append_right _ hm
    have hinS := merged_fold_ws_mem l2 st2 _ hin2
    rw [hcm]
    exact hinS

/-- Core facts about one resolvable clone of a non-bios parent under the
merged convention, with no assumption on the shape of the parent: the
clone is always deleted from the reconciled map (deletions are deferred,
so the parent still resolves at the clone's step even if it is itself a
clone), and whenever the parent survives into the reconciled map its
record keeps every original digest entry and holds an entry for every rom
of the clone. -/
theorem merged_run_core_general (m : RomMap) {c p : String} {crs prs : Romset}
    (hc : alookup m c = some crs) (hro : crs.romof = some p)
    (hp : alookup m p = some prs) (hbios : prs.isbios = false) :
    alookup (create_merged_checklist m).1 c = none ∧
    (∀ q, alookup (create_merged_checklist m).1 p = some q →
       DigestsLe prs.rom_digests q.rom_digests ∧
       (∀ rn v, alookup crs.rom_digests rn = some v → (alookup q.rom_digests rn).isSome)) := by
  obtain ⟨l1, l2, hsplit⟩ := List.append_of_mem (alookup_some_mem_keys hc)
  set st0 : MState := (⟨m, [], []⟩ : MState) with hst0
  set st1 := l1.foldl merged_step st0 with hst1
  set st2 := merged_step st1 c with hst2
  set S := l2.foldl merged_step st2 with hSdef
  have hSfold : (m.map Prod.fst).foldl merged_step st0 = S := by
    rw [hsplit, List.foldl_append, List.foldl_cons]
  have pres1 : MPres m st1.map := merged_fold_mpres l1 st0
  obtain ⟨c1, hc1, hc1ro, hc1bi, hc1dl⟩ := pres1.look c crs hc
  obtain ⟨p1, hp1, hp1ro, hp1bi, hp1dl⟩ := pres1.look p prs hp
  have hc1p : c1.romof = some p := by rw [hc1ro, hro]
  have hp1b : p1.isbios = false := by rw [hp1bi, hbios]
  have hstep := merged_step_eq_merge hc1 hc1p hp1 hp1b
  have hmap2 : st2.map = aupdate st1.map p
      { p1 with rom_digests := (merge_digests p c p1.rom_digests c1.rom_digests).1 } := by
    rw [hst2, hstep]
  have hdl2 : st2.delete_list = st1.delete_list ++ [c] := by rw [hst2, hstep]
  have pres2 : MPres st2.map S.map := merged_fold_mpres l2 st2
  have hp2 : alookup st2.map p = some
      { p1 with rom_digests := (merge_digests p c p1.rom_digests c1.rom_digests).1 } := by
    rw [hmap2, alookup_aupdate, if_pos rfl, hp1]
    rfl
  obtain ⟨q0, hq0, _, _, hq0dl⟩ := pres2.look p _ hp2
  have hcdl : c ∈ S.delete_list := by
    refine merged_fold_dl_mem l2 st2 c ?_
    rw [hdl2]
    exact List.mem_append_right _ (by simp)
  have hcm : create_merged_checklist m = (S.delete_list.foldl aerase S.map, S.warnings) := by
    rw [create_merged_eq_fold, hSfold]
  constructor
  · rw [hcm]
    dsimp only
    rw [erase_fold_alookup, if_pos hcdl]
  · intro q hq
    rw [hcm] at hq
    dsimp only at hq
    rw [erase_fold_alookup] at hq
    by_cases hpd : p ∈ S.delete_list
    · rw [if_pos hpd] at hq
      cases hq
    · rw [if_neg hpd] at hq
      have hqq : q0 = q := by
        rw [hq] at hq0
        exact (Option.some.inj hq0).symm
      rw [← hqq]
      constructor
      · intro rn v hv
        exact hq0dl rn v (merge_digests_preserves p c _ _ rn v (hp1dl rn v hv))
      · intro rn v hv
        obtain ⟨w, hw⟩ := merge_digests_covers p c c1.rom_digests p1.rom_digests rn v
          (hc1dl rn v hv)
        rw [hq0dl rn w hw]
        rfl

/-! ## Lemmas about `strip_digests` -/

theorem strip_sub (pn cn : String) :
    ∀ (pd cd : List (String × String)) (rn v : String),
      alookup (strip_digests pn cn pd cd).1 rn = some v → alookup cd rn = some v := by
  intro pd
  induction pd with
  | nil => intro cd rn v h; simpa [strip_digests] using h
  | cons e pt ih =>
    intro cd rn v h
    obtain ⟨prn, prd⟩ := e
    rw [strip_digests] at h
    cases hcd : alookup cd prn with
    | none =>
      rw [hcd] at h
      exact ih cd rn v h
    | some d =>
      rw [hcd] at h
      have h2 := ih (aerase cd prn) rn v h
      rw [alookup_aerase] at h2
      by_cases hr : rn = prn
      · rw [if_pos hr] at h2
        cases h2
      · rw [if_neg hr] at h2
        exact h2

theorem strip_none (pn cn : String) :
    ∀ (pd cd : List (String × String)) (rn d : String),
      alookup pd rn = some d → alookup (strip_digests pn cn pd cd).1 rn = none := by
  intro pd
  induction pd with
  | nil => intro cd rn d h; simp [alookup] at h
  | cons e pt ih =>
    intro cd rn d h
    obtain ⟨prn, prd⟩ := e
    rw [strip_digests]
    by_cases hr : prn = rn
    · subst hr
      cases hcd : alookup cd prn with
      | none =>
        cases hres : alookup (strip_digests pn cn pt cd).1 prn with
        | none => rfl
        | some v =>
          have := strip_sub pn cn pt cd prn v hres
          rw [hcd] at this
          cases this
      | some d2 =>
        cases hres : alookup (strip_digests pn cn pt (aerase cd prn)).1 prn with
        | none => rfl
        | some v =>
          have := strip_sub pn cn pt (aerase cd prn) prn v hres
          rw [alookup_aerase, if_pos rfl] at this
          cases this
    · have ht : alookup pt rn = some d := by simpa [alookup, hr] using h
      cases hcd : alookup cd prn with
      | none => exact ih cd rn d ht
      | some d2 => exact ih (aerase cd prn) rn d ht

theorem strip_pres (pn cn : String) :
    ∀ (pd cd : List (String × String)) (rn : String),
      alookup pd rn = none → alookup (strip_digests pn cn pd cd).1 rn = alookup cd rn := by
  intro pd
  induction pd with
  | nil => intro cd rn h; rw [strip_digests]
  | cons e pt ih =>
    intro cd rn h
    obtain ⟨prn, prd⟩ := e
    have hr : ¬ prn = rn := by
      intro hh
      rw [alookup, if_pos hh] at h
      cases h
    have ht : alookup pt rn = none := by
      rw [alookup, if_neg hr] at h
      exact h
    rw [strip_digests]
    cases hcd : alookup cd prn with
    | none => exact ih cd rn ht
    | some d =>
      have := ih (aerase cd prn) rn ht
      rw [alookup_aerase, if_neg (fun hh : rn = prn => hr hh.symm)] at this
      exact this

theorem strip_conflict (pn cn : String) :
    ∀ (pd cd : List (String × String)) (rn d dc : String),
      alookup pd rn = some d → alookup cd rn = some dc → d ≠ dc →
      Warning.digestConflict pn cn rn ∈ (strip_digests pn cn pd cd).2 := by
  intro pd
  induction pd with
  | nil => intro cd rn d dc h hcd hne; simp [alookup] at h
  | cons e pt ih =>
    intro cd rn d dc h hcd hne
    obtain ⟨prn, prd⟩ := e
    rw [strip_digests]
    by_cases hr : prn = rn
    · subst hr
      have hpd : prd = d := by simpa [alookup] using h
      subst hpd
      rw [hcd]
      have : dc ≠ prd := fun hh => hne (hh.symm)
      simp [this]
    · have ht : alookup pt rn = some d := by simpa [alookup, hr] using h
      cases hcd2 : alookup cd prn with
      | none => exact ih cd rn d dc ht hcd hne
      | some d2 =>
        have hcd3 : alookup (aerase cd prn) rn = some dc := by
          rw [alookup_aerase, if_neg (fun hh : rn = prn => hr hh.symm)]
          exact hcd
        exact List.mem_append.mpr (Or.inr (ih (aerase cd prn) rn d dc ht hcd3 hne))

theorem strip_entries_sub (pn cn : String) :
    ∀ (pd cd : List (String × String)) (e : String × String),
      e ∈ (strip_digests pn cn pd cd).1 → e ∈ cd := by
  intro pd
  induction pd with
  | nil => intro cd e h; simpa [strip_digests] using h
  | cons f pt ih =>
    intro cd e h
    obtain ⟨prn, prd⟩ := f
    rw [strip_digests] at h
    cases hcd : alookup cd prn with
    | none =>
      rw [hcd] at h
      exact ih cd e h
    | some d =>
      rw [hcd] at h
      exact mem_of_mem_aerase (ih (aerase cd prn) e h)

theorem strip_noop (pn cn : String) :
    ∀ (pd cd : List (String × String)),
      (∀ e ∈ pd, alookup cd e.1 = none) → strip_digests pn cn pd cd = (cd, []) := by
  intro pd
  induction pd with
  | nil => intro cd h; rw [strip_digests]
  | cons f pt ih =>
    intro cd h
    obtain ⟨prn, prd⟩ := f
    rw [strip_digests]
    have hcd : alookup cd prn = none := h (prn, prd) (List.mem_cons_self _ _)
    rw [hcd]
    exact ih cd (fun e he => h e (List.mem_cons_of_mem _ he))

/-! ## Branch equations and preservation for `split_step` -/

theorem split_step_eq_skip {st : RomMap × List Warning} {k : String}
    (hc : alookup st.1 k = none) : split_step st k = st := by
  unfold split_step
  rw [hc]

theorem split_step_eq_root {st : RomMap × List Warning} {k : String} {cur : Romset}
    (hc : alookup st.1 k = some cur) (hro : cur.romof = none) :
    split_step st k = st := by
  unfold split_step
  rw [hc]; dsimp only
  rw [hro]

theorem split_step_eq_dangling {st : RomMap × List Warning} {k pn : String} {cur : Romset}
    (hc : alookup st.1 k = some cur) (hro : cur.romof = some pn)
    (hp : alookup st.1 pn = none) :
    split_step st k = (st.1, st.2 ++ [Warning.danglingParent k pn]) := by
  unfold split_step
  rw [hc]; dsimp only
  rw [hro]; dsimp only
  rw [hp]

theorem split_step_eq_strip {st : RomMap × List Warning} {k pn : String} {cur parent : Romset}
    (hc : alookup st.1 k = some cur) (hro : cur.romof = some pn)
    (hp : alookup st.1 pn = some parent) :
    split_step st k =
      (aupdate st.1 k
        { cur with rom_digests := (strip_digests pn k parent.rom_digests cur.rom_digests).1 },
       st.2 ++ (strip_digests pn k parent.rom_digests cur.rom_digests).2) := by
  unfold split_step
  rw [hc]; dsimp only
  rw [hro]; dsimp only
  rw [hp]

theorem split_step_alookup_other (st : RomMap × List Warning) (k n : String) (hne : ¬ n = k) :
    alookup (split_step st k).1 n = alookup st.1 n := by
  cases hc : alookup st.1 k with
  | none => rw [split_step_eq_skip hc]
  | some cur =>
    cases hro : cur.romof with
    | none => rw [split_step_eq_root hc hro]
    | some pn =>
      cases hp : alookup st.1 pn with
      | none => rw [split_step_eq_dangling hc hro hp]
      | some parent =>
        rw [split_step_eq_strip hc hro hp]
        dsimp only
        rw [alookup_aupdate, if_neg hne]

theorem split_step_ws_suffix (st : RomMap × List Warning) (k : String) :
    ∃ l, (split_step st k).2 = st.2 ++ l := by
  cases hc : alookup st.1 k with
  | none => exact ⟨[], by rw [split_step_eq_skip hc]; simp⟩
  | some cur =>
    cases hro : cur.romof with
    | none => exact ⟨[], by rw [split_step_eq_root hc hro]; simp⟩
    | some pn =>
      cases hp : alookup st.1 pn with
      | none => exact ⟨[Warning.danglingParent k pn], by rw [split_step_eq_dangling hc hro hp]⟩
      | some parent =>
        exact ⟨(strip_digests pn k parent.rom_digests cur.rom_digests).2,
          by rw [split_step_eq_strip hc hro hp]⟩

theorem split_fold_ws_mem (keys : List String) :
    ∀ (st : RomMap × List Warning) (w : Warning), w ∈ st.2 →
      w ∈ (keys.foldl split_step st).2 := by
  induction keys with
  | nil => intro st w h; exact h
  | cons k t ih =>
    intro st w h
    rw [List.foldl_cons]
    obtain ⟨l, hl⟩ := split_step_ws_suffix st k
    exact ih _ w (by rw [hl]; exact List.mem_append_left _ h)

theorem split_fold_alookup_not_mem (keys : List String) :
    ∀ (st : RomMap × List Warning) (n : String), n ∉ keys →
      alookup (keys.foldl split_step st).1 n = alookup st.1 n := by
  induction keys with
  | nil => intro st n _; rfl
  | cons k t ih =>
    intro st n h
    rw [List.foldl_cons, ih _ n (fun hm => h (List.mem_cons_of_mem _ hm)),
      split_step_alookup_other st k n (fun hh => h (hh ▸ List.mem_cons_self _ _))]

theorem split_fold_alookup_root (keys : List String) :
    ∀ (st : RomMap × List Warning) (p : String) (prs : Romset),
      alookup st.1 p = some prs → prs.romof = none →
      alookup (keys.foldl split_step st).1 p = some prs := by
  induction keys with
  | nil => intro st p prs hp _; exact hp
  | cons k t ih =>
    intro st p prs hp hroot
    rw [List.foldl_cons]
    by_cases hk : p = k
    · subst hk
      rw [split_step_eq_root hp hroot]
      exact ih st p prs hp hroot
    · refine ih _ p prs ?_ hroot
      rw [split_step_alookup_other st k p (fun hh => hk hh)]
      exact hp

/-- Facts preserved from one rom map to a later state of the split
reconciliation: key presence, `romof` and `isbios` are unchanged, and
digest dicts only lose entries (surviving entries keep their value). -/
structure SPres (a b : RomMap) : Prop where
  look : ∀ n x, alookup a n = some x →
    ∃ y, alookup b n = some y ∧ y.romof = x.romof ∧ y.isbios = x.isbios ∧
      DigestsLe y.rom_digests x.rom_digests
  nonep : ∀ n, alookup a n = none → alookup b n = none

theorem spres_refl (a : RomMap) : SPres a a :=
  ⟨fun _ x h => ⟨x, h, rfl, rfl, fun _ _ hv => hv⟩, fun _ h => h⟩

theorem spres_trans {a b c : RomMap} (h1 : SPres a b) (h2 : SPres b c) : SPres a c := by
  constructor
  · intro n x hx
    obtain ⟨y, hy, hro, hbi, hdl⟩ := h1.look n x hx
    obtain ⟨z, hz, hro2, hbi2, hdl2⟩ := h2.look n y hy
    exact ⟨z, hz, hro2.trans hro, hbi2.trans hbi, fun rn v hv => hdl rn v (hdl2 rn v hv)⟩
  · intro n hn
    exact h2.nonep n (h1.nonep n hn)

theorem split_step_spres (st : RomMap × List Warning) (k : String) :
    SPres st.1 (split_step st k).1 := by
  cases hc : alookup st.1 k with
  | none => rw [split_step_eq_skip hc]; exact spres_refl _
  | some cur =>
    cases hro : cur.romof with
    | none => rw [split_step_eq_root hc hro]; exact spres_refl _
    | some pn =>
      cases hp : alookup st.1 pn with
      | none => rw [split_step_eq_dangling hc hro hp]; exact spres_refl _
      | some parent =>
        rw [split_step_eq_strip hc hro hp]
        constructor
        · intro n x hx
          by_cases hn : n = k
          · have hxc : x = cur := by
              have hx2 := hx
              rw [hn] at hx2
              rw [hx2] at hc
              exact Option.some.inj hc
            rw [hxc]
            refine ⟨{ cur with
                rom_digests := (strip_digests pn k parent.rom_digests cur.rom_digests).1 },
              ?_, rfl, rfl, ?_⟩
            · dsimp only
              rw [alookup_aupdate, if_pos hn, hc]
              rfl
            · intro rn v hv
              exact strip_sub pn k _ _ rn v hv
          · refine ⟨x, ?_, rfl, rfl, fun _ _ hv => hv⟩
            dsimp only
            rw [alookup_aupdate, if_neg hn]
            exact hx
        · intro n hn
          dsimp only
          rw [alookup_aupdate]
          by_cases hnk : n = k
          · subst hnk
            rw [hn] at hc
            cases hc
          · rw [if_neg hnk]
            exact hn

theorem split_fold_spres (keys : List String) :
    ∀ st : RomMap × List Warning, SPres st.1 ((keys.foldl split_step st).1) := by
  induction keys with
  | nil => intro st; exact spres_refl _
  | cons k t ih =>
    intro st
    rw [List.foldl_cons]
    exact spres_trans (split_step_spres st k) (ih (split_step st k))

theorem create_split_eq_fold (m : RomMap) :
    create_split_checklist m = (m.map Prod.fst).foldl split_step (m, []) := rfl

/-- Core facts about one resolvable clone under the split convention when
its parent is a root and item names are unique: the clone ends with
exactly its own digests stripped of the parent rom names, the parent is
untouched, and every warning of the strip phase is reported. -/
theorem split_run_core (m : RomMap) {c p : String} {crs prs : Romset}
    (hn : (m.map Prod.fst).Nodup)
    (hc : alookup m c = some crs) (hro : crs.romof = some p)
    (hp : alookup m p = some prs) (hroot : prs.romof = none) :
    alookup (create_split_checklist m).1 c =
      some { crs with rom_digests := (strip_digests p c prs.rom_digests crs.rom_digests).1 } ∧
    alookup (create_split_checklist m).1 p = some prs ∧
    (∀ w ∈ (strip_digests p c prs.rom_digests crs.rom_digests).2,
       w ∈ (create_split_checklist m).2) := by
  have hcp : ¬ c = p := by
    intro hh
    rw [hh, hp] at hc
    have hpc : prs = crs := Option.some.inj hc
    rw [← hpc, hroot] at hro
    cases hro
  obtain ⟨l1, l2, hsplit⟩ := List.append_of_mem (alookup_some_mem_keys hc)
  have hn2 : (l1 ++ c :: l2).Nodup := hsplit ▸ hn
  have hcl1 : c ∉ l1 := by
    intro hm
    exact (List.disjoint_of_nodup_append hn2) hm (List.mem_cons_self _ _)
  have hcl2 : c ∉ l2 := by
    have := (List.Nodup.of_append_right hn2)
    exact (List.nodup_cons.mp this).1
  set st1 := l1.foldl split_step ((m, []) : RomMap × List Warning) with hst1
  have hlc1 : alookup st1.1 c = some crs := by
    rw [hst1, split_fold_alookup_not_mem l1 _ c hcl1]
    exact hc
  have hlp1 : alookup st1.1 p = some prs :=
    split_fold_alookup_root l1 _ p prs hp hroot
  set st2 := split_step st1 c with hst2
  have hstep := split_step_eq_strip hlc1 hro hlp1
  have hmap2 : st2.1 = aupdate st1.1 c
      { crs with rom_digests := (strip_digests p c prs.rom_digests crs.rom_digests).1 } := by
    rw [hst2, hstep]
  have hws2 : st2.2 = st1.2 ++ (strip_digests p c prs.rom_digests crs.rom_digests).2 := by
    rw [hst2, hstep]
  have hlc2 : alookup st2.1 c = some
      { crs with rom_digests := (strip_digests p c prs.rom_digests crs.rom_digests).1 } := by
    rw [hmap2, alookup_aupdate, if_pos rfl, hlc1]
    rfl
  have hlp2 : alookup st2.1 p = some prs := by
    rw [hmap2, alookup_aupdate, if_neg (fun hh : p = c => hcp hh.symm)]
    exact hlp1
  have hS : create_split_checklist m = l2.foldl split_step st2 := by
    rw [create_split_eq_fold, hsplit, List.foldl_append, List.foldl_cons]
  refine ⟨?_, ?_, ?_⟩
  · rw [hS, split_fold_alookup_not_mem l2 st2 c hcl2]
    exact hlc2
  · rw [hS]
    exact split_fold_alookup_root l2 st2 p prs hlp2 hroot
  · intro w hw
    rw [hS]
    refine split_fold_ws_mem l2 st2 w ?_
    rw [hws2]
    exact List.mem_append_right _ hw

/-! ## Idempotence of the merged reconciliation -/

/-- No item of the map has a parent that resolves to a non-bios item, so
the merged pass has nothing to merge or delete. -/
def MergedStable (m : RomMap) : Prop :=
  ∀ n x pn, alookup m n = some x → x.romof = some pn →
    alookup m pn = none ∨ ∃ q, alookup m pn = some q ∧ q.isbios = true

theorem merged_fold_noop (m : RomMap) (hm : MergedStable m) (keys : List String) :
    ∀ dl ws, (keys.foldl merged_step ⟨m, dl, ws⟩).map = m ∧
      (keys.foldl merged_step ⟨m, dl, ws⟩).delete_list = dl := by
  induction keys with
  | nil => intro dl ws; exact ⟨rfl, rfl⟩
  | cons k t ih =>
    intro dl ws
    rw [List.foldl_cons]
    cases hc : alookup m k with
    | none =>
      rw [@merged_step_eq_skip ⟨m, dl, ws⟩ k hc]
      exact ih dl ws
    | some cur =>
      cases hro : cur.romof with
      | none =>
        rw [@merged_step_eq_root ⟨m, dl, ws⟩ k cur hc hro]
        exact ih dl ws
      | some pn =>
        rcases hm k cur pn hc hro with hnone | ⟨q, hq, hqb⟩
        · rw [@merged_step_eq_dangling ⟨m, dl, ws⟩ k pn cur hc hro hnone]
          exact ih dl (ws ++ [Warning.danglingParent k pn])
        · rw [@merged_step_eq_bios ⟨m, dl, ws⟩ k pn cur q hc hro hq hqb]
          exact ih dl ws

theorem merged_noop (m : RomMap) (hm : MergedStable m) :
    (create_merged_checklist m).1 = m := by
  rw [create_merged_eq_fold]
  obtain ⟨h1, h2⟩ := merged_fold_noop m hm (m.map Prod.fst) [] []
  dsimp only
  rw [h1, h2]
  rfl

theorem merged_post_stable (m : RomMap) : MergedStable (create_merged_checklist m).1 := by
  intro n x pn hxl hxro
  have hcm : create_merged_checklist m =
      (((m.map Prod.fst).foldl merged_step ⟨m, [], []⟩).delete_list.foldl aerase
         ((m.map Prod.fst).foldl merged_step ⟨m, [], []⟩).map,
       ((m.map Prod.fst).foldl merged_step ⟨m, [], []⟩).warnings) := create_merged_eq_fold m
  set S := (m.map Prod.fst).foldl merged_step (⟨m, [], []⟩ : MState) with hS
  rw [hcm] at hxl
  dsimp only at hxl
  rw [erase_fold_alookup] at hxl
  by_cases hnd : n ∈ S.delete_list
  · rw [if_pos hnd] at hxl; cases hxl
  rw [if_neg hnd] at hxl
  have presS : MPres m S.map := merged_fold_mpres (m.map Prod.fst) ⟨m, [], []⟩
  cases hn0 : alookup m n with
  | none => rw [presS.nonep n hn0] at hxl; cases hxl
  | some n0 =>
    obtain ⟨y, hy, hyro, hybi, _⟩ := presS.look n n0 hn0
    have hxy : x = y := by rw [hxl] at hy; exact Option.some.inj hy
    have hn0ro : n0.romof = some pn := by rw [← hyro, ← hxy]; exact hxro
    cases hp0 : alookup m pn with
    | none =>
      left
      rw [hcm]
      dsimp only
      rw [erase_fold_alookup]
      by_cases hpd : pn ∈ S.delete_list
      · rw [if_pos hpd]
      · rw [if_neg hpd]
        exact presS.nonep pn hp0
    | some p0 =>
      cases hb : p0.isbios with
      | true =>
        obtain ⟨q, hq, _, hqbi, _⟩ := presS.look pn p0 hp0
        rw [hcm]
        dsimp only
        by_cases hpd : pn ∈ S.delete_list
        · left
          rw [erase_fold_alookup, if_pos hpd]
        · right
          refine ⟨q, ?_, by rw [hqbi, hb]⟩
          rw [erase_fold_alookup, if_neg hpd]
          exact hq
      | false =>
        exfalso
        apply hnd
        obtain ⟨l1, l2, hsplit⟩ := List.append_of_mem (alookup_some_mem_keys hn0)
        have pres1 : MPres m (l1.foldl merged_step (⟨m, [], []⟩ : MState)).map :=
          merged_fold_mpres l1 (⟨m, [], []⟩ : MState)
        obtain ⟨n1, hc1, hc1ro, _, _⟩ := pres1.look n n0 hn0
        obtain ⟨p1, hp1, _, hp1bi, _⟩ := pres1.look pn p0 hp0
        have hc1p : n1.romof = some pn := by rw [hc1ro, hn0ro]
        have hp1b : p1.isbios = false := by rw [hp1bi, hb]
        have hstep := merged_step_eq_merge hc1 hc1p hp1 hp1b
        have hmem2 : n ∈ (merged_step (l1.foldl merged_step ⟨m, [], []⟩) n).delete_list := by
          rw [hstep]
          exact List.mem_append_right _ (by simp)
        have hmem3 :=
          merged_fold_dl_mem l2 (merged_step (l1.foldl merged_step ⟨m, [], []⟩) n) n hmem2
        have hSeq : S = l2.foldl merged_step (merged_step (l1.foldl merged_step ⟨m, [], []⟩) n) := by
          rw [hS, hsplit, List.foldl_append, List.foldl_cons]
        rw [hSeq]
        exact hmem3

theorem merged_idem (m : RomMap) :
    (create_merged_checklist (create_merged_checklist m).1).1 = (create_merged_checklist m).1 :=
  merged_noop _ (merged_post_stable m)

/-! ## Idempotence of the split reconciliation -/

/-- Every item whose parent resolves shares no rom name with that parent,
so the split pass has nothing to delete. -/
def SplitStable (m : RomMap) : Prop :=
  ∀ n x pn y, alookup m n = some x → x.romof = some pn → alookup m pn = some y →
    ∀ e ∈ y.rom_digests, alookup x.rom_digests e.1 = none

theorem split_fold_noop (m : RomMap) (hm : SplitStable m) (keys : List String) :
    ∀ ws, (keys.foldl split_step (m, ws)).1 = m := by
  induction keys with
  | nil => intro ws; rfl
  | cons k t ih =>
    intro ws
    rw [List.foldl_cons]
    cases hc : alookup m k with
    | none =>
      rw [@split_step_eq_skip (m, ws) k hc]
      exact ih ws
    | some cur =>
      cases hro : cur.romof with
      | none =>
        rw [@split_step_eq_root (m, ws) k cur hc hro]
        exact ih ws
      | some pn =>
        cases hp : alookup m pn with
        | none =>
          rw [@split_step_eq_dangling (m, ws) k pn cur hc hro hp]
          exact ih (ws ++ [Warning.danglingParent k pn])
        | some parent =>
          rw [@split_step_eq_strip (m, ws) k pn cur parent hc hro hp]
          have hno := strip_noop pn k parent.rom_digests cur.rom_digests
            (hm k cur pn parent hc hro hp)
          rw [hno]
          dsimp only
          have he : ({ cur with rom_digests := cur.rom_digests } : Romset) = cur := rfl
          rw [he, aupdate_self_eq hc, List.append_nil]
          exact ih ws

theorem split_noop (m : RomMap) (hm : SplitStable m) :
    (create_split_checklist m).1 = m := by
  rw [create_split_eq_fold]
  exact split_fold_noop m hm (m.map Prod.fst) []

theorem split_post_stable (m : RomMap) (hn : (m.map Prod.fst).Nodup) :
    SplitStable (create_split_checklist m).1 := by
  intro n x pn y hxl hxro hyl
  have presS : SPres m (create_split_checklist m).1 :=
    split_fold_spres (m.map Prod.fst) ((m, []) : RomMap × List Warning)
  cases hn0 : alookup m n with
  | none => rw [presS.nonep n hn0] at hxl; cases hxl
  | some n0 =>
  obtain ⟨x2, hx2, hx2ro, _, _⟩ := presS.look n n0 hn0
  have hxx : x = x2 := by rw [hxl] at hx2; exact Option.some.inj hx2
  have hn0ro : n0.romof = some pn := by rw [← hx2ro, ← hxx]; exact hxro
  cases hp0 : alookup m pn with
  | none => rw [presS.nonep pn hp0] at hyl; cases hyl
  | some p0 =>
  obtain ⟨l1, l2, hsplit⟩ := List.append_of_mem (alookup_some_mem_keys hn0)
  have hn2 : (l1 ++ n :: l2).Nodup := hsplit ▸ hn
  have hnl1 : n ∉ l1 := fun hm2 =>
    (List.disjoint_of_nodup_append hn2) hm2 (List.mem_cons_self _ _)
  have hnl2 : n ∉ l2 := (List.nodup_cons.mp (List.Nodup.of_append_right hn2)).1
  have hlc1 : alookup (l1.foldl split_step ((m, []) : RomMap × List Warning)).1 n = some n0 := by
    rw [split_fold_alookup_not_mem l1 _ n hnl1]
    exact hn0
  have pres1 : SPres m (l1.foldl split_step ((m, []) : RomMap × List Warning)).1 :=
    split_fold_spres l1 ((m, []) : RomMap × List Warning)
  obtain ⟨p1, hp1, _, _, _⟩ := pres1.look pn p0 hp0
  have hstep := split_step_eq_strip hlc1 hn0ro hp1
  have hlc2 : alookup (split_step (l1.foldl split_step ((m, []) : RomMap × List Warning)) n).1 n =
      some { n0 with rom_digests := (strip_digests pn n p1.rom_digests n0.rom_digests).1 } := by
    rw [hstep]
    dsimp only
    rw [alookup_aupdate, if_pos rfl, hlc1]
    rfl
  have hSeq : create_split_checklist m =
      l2.foldl split_step (split_step (l1.foldl split_step ((m, []) : RomMap × List Warning)) n) := by
    rw [create_split_eq_fold, hsplit, List.foldl_append, List.foldl_cons]
  have hfinalN : alookup (create_split_checklist m).1 n =
      some { n0 with rom_digests := (strip_digests pn n p1.rom_digests n0.rom_digests).1 } := by
    rw [hSeq, split_fold_alookup_not_mem l2 _ n hnl2]
    exact hlc2
  have hxnew : x =
      { n0 with rom_digests := (strip_digests pn n p1.rom_digests n0.rom_digests).1 } := by
    rw [hxl] at hfinalN
    exact Option.some.inj hfinalN
  intro e he
  rw [hxnew]
  show alookup (strip_digests pn n p1.rom_digests n0.rom_digests).1 e.1 = none
  by_cases hpe : pn = n
  · have hp1n : p1 = n0 := by
      rw [hpe] at hp1
      rw [hlc1] at hp1
      exact (Option.some.inj hp1).symm
    have hyx : y = { n0 with rom_digests := (strip_digests pn n p1.rom_digests n0.rom_digests).1 } := by
      rw [hpe] at hyl
      rw [hfinalN] at hyl
      exact (Option.some.inj hyl).symm
    have he2 : e ∈ (strip_digests pn n p1.rom_digests n0.rom_digests).1 := by
      rw [hyx] at he
      exact he
    have he3 : e ∈ n0.rom_digests := strip_entries_sub pn n _ _ e he2
    obtain ⟨w, hw⟩ := mem_alookup_isSome he3
    rw [← hp1n] at hw
    exact strip_none pn n p1.rom_digests n0.rom_digests e.1 w hw
  · have hlp2 : alookup (split_step (l1.foldl split_step ((m, []) : RomMap × List Warning)) n).1 pn =
        some p1 := by
      rw [split_step_alookup_other _ n pn hpe]
      exact hp1
    have pres2 := split_fold_spres l2
      (split_step (l1.foldl split_step ((m, []) : RomMap × List Warning)) n)
    obtain ⟨y2, hy2, _, _, hy2dl⟩ := pres2.look pn p1 hlp2
    have hyy2 : y = y2 := by
      rw [hSeq] at hyl
      rw [hyl] at hy2
      exact Option.some.inj hy2
    obtain ⟨w, hw⟩ := mem_alookup_isSome he
    have hwp1 : alookup p1.rom_digests e.1 = some w := by
      refine hy2dl e.1 w ?_
      rw [← hyy2]
      exact hw
    exact strip_none pn n p1.rom_digests n0.rom_digests e.1 w hwp1

theorem split_idem (m : RomMap) (hn : (m.map Prod.fst).Nodup) :
    (create_split_checklist (create_split_checklist m).1).1 = (create_split_checklist m).1 :=
  split_noop _ (split_post_stable m hn)

/-! ## Lemmas about `check_roms` -/

theorem check_step_eq_error (store : String → ZipContent) (e : String) (k : String) :
    check_step store (Except.error e) k = Except.error e := rfl

theorem check_step_eq_absent {store : String → ZipContent} {k : String}
    (m : RomMap) (s : Stats) (hst : store k = ZipContent.absent) :
    check_step store (Except.ok (m, s)) k =
      Except.ok (m, { s with missing_files := s.missing_files ++ [k] }) := by
  unfold check_step
  dsimp only
  rw [hst]

theorem check_step_eq_unreadable {store : String → ZipContent} {k msg : String}
    (m : RomMap) (s : Stats) (hst : store k = ZipContent.unreadable msg) :
    check_step store (Except.ok (m, s)) k = Except.error msg := by
  unfold check_step
  dsimp only
  rw [hst]

theorem check_step_eq_readable_none {store : String → ZipContent} {k : String}
    {zd : List (String × String)} {m : RomMap} (s : Stats)
    (hst : store k = ZipContent.readable zd) (hmk : alookup m k = none) :
    check_step store (Except.ok (m, s)) k = Except.ok (m, s) := by
  unfold check_step
  dsimp only
  rw [hst]
  dsimp only
  rw [hmk]

theorem check_step_eq_readable {store : String → ZipContent} {k : String}
    {zd : List (String × String)} {m : RomMap} {rs : Romset} (s : Stats)
    (hst : store k = ZipContent.readable zd) (hmk : alookup m k = some rs) :
    check_step store (Except.ok (m, s)) k =
      Except.ok (m, rs.rom_digests.foldl (fun st p => check_member zd k st p.1 p.2) s) := by
  unfold check_step
  dsimp only
  rw [hst]
  dsimp only
  rw [hmk]

theorem check_fold_error (store : String → ZipContent) (keys : List String) (e : String) :
    keys.foldl (check_step store) (Except.error e) = Except.error e := by
  induction keys with
  | nil => rfl
  | cons k t ih =>
    rw [List.foldl_cons]
    exact ih

theorem check_fold_frame (store : String → ZipContent) (keys : List String) :
    ∀ (m : RomMap) (s : Stats) (r : RomMap × Stats),
      keys.foldl (check_step store) (Except.ok (m, s)) = Except.ok r → r.1 = m := by
  induction keys with
  | nil =>
    intro m s r h
    have := Except.ok.inj h
    rw [← this]
  | cons k t ih =>
    intro m s r h
    rw [List.foldl_cons] at h
    cases hst : store k with
    | absent =>
      rw [check_step_eq_absent m s hst] at h
      exact ih m _ r h
    | unreadable e =>
      rw [check_step_eq_unreadable m s hst, check_fold_error store t e] at h
      cases h
    | readable zd =>
      cases hmk : alookup m k with
      | none =>
        rw [check_step_eq_readable_none s hst hmk] at h
        exact ih m s r h
      | some rs =>
        rw [check_step_eq_readable s hst hmk] at h
        exact ih m _ r h

theorem check_fold_unreadable (store : String → ZipContent) (keys : List String) :
    ∀ (acc : Except String (RomMap × Stats)) (n msg : String), n ∈ keys →
      store n = ZipContent.unreadable msg →
      ∃ e, keys.foldl (check_step store) acc = Except.error e := by
  induction keys with
  | nil => intro acc n msg h _; cases h
  | cons k t ih =>
    intro acc n msg hmem hst
    rw [List.foldl_cons]
    rcases List.mem_cons.mp hmem with rfl | hmem2
    · cases acc with
      | error e =>
        rw [check_step_eq_error]
        exact ⟨e, check_fold_error store t e⟩
      | ok pr =>
        obtain ⟨mm, ss⟩ := pr
        rw [check_step_eq_unreadable mm ss hst]
        exact ⟨msg, check_fold_error store t msg⟩
    · exact ih _ n msg hmem2 hst

/-! ## A dangling parent under the split convention -/

theorem split_fold_dangling_inv (c p : String) (crs : Romset) (hro : crs.romof = some p)
    (keys : List String) :
    ∀ st : RomMap × List Warning,
      alookup st.1 c = some crs → alookup st.1 p = none →
      alookup (keys.foldl split_step st).1 c = some crs ∧
      alookup (keys.foldl split_step st).1 p = none := by
  induction keys with
  | nil => intro st h1 h2; exact ⟨h1, h2⟩
  | cons k t ih =>
    intro st h1 h2
    rw [List.foldl_cons]
    cases hck : alookup st.1 k with
    | none =>
      rw [split_step_eq_skip hck]
      exact ih st h1 h2
    | some cur =>
      have hkp : ¬ k = p := by
        intro hh
        rw [hh, h2] at hck
        cases hck
      by_cases hkc : k = c
      · rw [hkc, split_step_eq_dangling h1 hro h2]
        exact ih _ h1 h2
      · have hl1 : alookup (split_step st k).1 c = some crs := by
          rw [split_step_alookup_other st k c (fun hh => hkc hh.symm)]
          exact h1
        have hl2 : alookup (split_step st k).1 p = none := by
          rw [split_step_alookup_other st k p (fun hh => hkp hh.symm)]
          exact h2
        exact ih _ hl1 hl2

/-- Under the split convention a clone with a dangling parent keeps its
record untouched and the dangling reference is reported. -/
theorem split_dangling_kept (m : RomMap) {c p : String} {crs : Romset}
    (hc : alookup m c = some crs) (hro : crs.romof = some p)
    (hp : alookup m p = none) :
    alookup (create_split_checklist m).1 c = some crs ∧
    Warning.danglingParent c p ∈ (create_split_checklist m).2 := by
  constructor
  · rw [create_split_eq_fold]
    exact (split_fold_dangling_inv c p crs hro (m.map Prod.fst) (m, []) hc hp).1
  · obtain ⟨l1, l2, hsplit⟩ := List.append_of_mem (alookup_some_mem_keys hc)
    obtain ⟨h1, h2⟩ := split_fold_dangling_inv c p crs hro l1 ((m, []) : RomMap × List Warning) hc hp
    have hstep := split_step_eq_dangling h1 hro h2
    have hmem : Warning.danglingParent c p ∈
        (split_step (l1.foldl split_step ((m, []) : RomMap × List Warning)) c).2 := by
      rw [hstep]
      exact List.mem_append_right _ (by simp)
    have hS : create_split_checklist m =
        l2.foldl split_step (split_step (l1.foldl split_step ((m, []) : RomMap × List Warning)) c) := by
      rw [create_split_eq_fold, hsplit, List.foldl_append, List.foldl_cons]
    rw [hS]
    exact split_fold_ws_mem l2 _ _ hmem

/-! ## A dangling parent under the merged convention -/

theorem merged_fold_dangling_inv (m : RomMap) (c p : String) (crs : Romset)
    (hro : crs.romof = some p)
    (hni : ∀ e ∈ m, e.2.romof ≠ some c) (keys : List String) :
    ∀ st : MState,
      MPres m st.map → alookup st.map c = some crs → alookup st.map p = none →
      c ∉ st.delete_list →
      alookup ((keys.foldl merged_step st).map) c = some crs ∧
      alookup ((keys.foldl merged_step st).map) p = none ∧
      c ∉ ((keys.foldl merged_step st).delete_list) := by
  induction keys with
  | nil => intro st _ h1 h2 h3; exact ⟨h1, h2, h3⟩
  | cons k t ih =>
    intro st hpres h1 h2 h3
    rw [List.foldl_cons]
    have hpres2 : MPres m (merged_step st k).map :=
      mpres_trans hpres (merged_step_mpres st k)
    cases hck : alookup st.map k with
    | none =>
      rw [merged_step_eq_skip hck]
      exact ih st hpres h1 h2 h3
    | some cur =>
      cases hcro : cur.romof with
      | none =>
        rw [merged_step_eq_root hck hcro]
        exact ih st hpres h1 h2 h3
      | some pn =>
        cases hpk : alookup st.map pn with
        | none =>
          rw [merged_step_eq_dangling hck hcro hpk]
          exact ih _ hpres h1 h2 h3
        | some parent =>
          cases hb : parent.isbios with
          | true =>
            rw [merged_step_eq_bios hck hcro hpk hb]
            exact ih st hpres h1 h2 h3
          | false =>
            have hstep := merged_step_eq_merge hck hcro hpk hb
            -- the merge target is not the dangling item nor the missing parent
            have hpnc : ¬ pn = c := by
              intro hh
              cases hk0 : alookup m k with
              | none =>
                rw [hpres.nonep k hk0] at hck
                cases hck
              | some k0 =>
                obtain ⟨y, hy, hyro, _, _⟩ := hpres.look k k0 hk0
                rw [hck] at hy
                have hcy : cur = y := Option.some.inj hy
                have : k0.romof = some pn := by rw [← hyro, ← hcy]; exact hcro
                exact hni (k, k0) (alookup_mem hk0) (by rw [this, hh])
            have hpnp : ¬ pn = p := by
              intro hh
              rw [hh, h2] at hpk
              cases hpk
            have hl1 : alookup (merged_step st k).map c = some crs := by
              rw [hstep]
              dsimp only
              rw [alookup_aupdate, if_neg (fun hh : c = pn => hpnc hh.symm)]
              exact h1
            have hl2 : alookup (merged_step st k).map p = none := by
              rw [hstep]
              dsimp only
              rw [alookup_aupdate, if_neg (fun hh : p = pn => hpnp hh.symm)]
              exact h2
            have hl3 : c ∉ (merged_step st k).delete_list := by
              rw [hstep]
              dsimp only
              intro hmem
              rcases List.mem_append.mp hmem with hmem | hmem
              · exact h3 hmem
              · have hkc : c = k := by simpa using hmem
                rw [← hkc, h1] at hck
                have hcc : crs = cur := Option.some.inj hck
                rw [← hcc, hro] at hcro
                exact hpnp (Option.some.inj hcro).symm
            exact ih _ hpres2 hl1 hl2 hl3

/-- Under the merged convention a clone with a dangling parent is kept
with its record untouched (provided no other item declares it as parent)
and the dangling reference is reported. -/
theorem merged_dangling_kept (m : RomMap) {c p : String} {crs : Romset}
    (hc : alookup m c = some crs) (hro : crs.romof = some p)
    (hp : alookup m p = none)
    (hni : ∀ e ∈ m, e.2.romof ≠ some c) :
    alookup (create_merged_checklist m).1 c = some crs ∧
    Warning.danglingParent c p ∈ (create_merged_checklist m).2 := by
  have hbase := merged_fold_dangling_inv m c p crs hro hni (m.map Prod.fst)
    (⟨m, [], []⟩ : MState) (mpres_refl m) hc hp (by simp)
  obtain ⟨h1, h2, h3⟩ := hbase
  constructor
  · rw [create_merged_eq_fold]
    dsimp only
    rw [erase_fold_alookup, if_neg h3]
    exact h1
  · obtain ⟨l1, l2, hsplit⟩ := List.append_of_mem (alookup_some_mem_keys hc)
    obtain ⟨g1, g2, g3⟩ := merged_fold_dangling_inv m c p crs hro hni l1
      (⟨m, [], []⟩ : MState) (mpres_refl m) hc hp (by simp)
    have hstep := merged_step_eq_dangling g1 hro g2
    have hmem : Warning.danglingParent c p ∈
        (merged_step (l1.foldl merged_step (⟨m, [], []⟩ : MState)) c).warnings := by
      rw [hstep]
      exact List.mem_append_right _ (by simp)
    have hS : create_merged_checklist m =
        (((l2.foldl merged_step (merged_step (l1.foldl merged_step ⟨m, [], []⟩) c)).delete_list).foldl
           aerase ((l2.foldl merged_step (merged_step (l1.foldl merged_step ⟨m, [], []⟩) c)).map),
         (l2.foldl merged_step (merged_step (l1.foldl merged_step ⟨m, [], []⟩) c)).warnings) := by
      rw [create_merged_eq_fold, hsplit, List.foldl_append, List.foldl_cons]
    rw [hS]
    exact merged_fold_ws_mem l2 _ _ hmem

/-! ## A clone of a bios parent under the merged convention -/

theorem merged_fold_bios_not_dl (m : RomMap) (c p : String) (crs prs : Romset)
    (hc : alookup m c = some crs) (hro : crs.romof = some p)
    (hp : alookup m p = some prs) (hb : prs.isbios = true) (keys : List String) :
    ∀ st : MState, MPres m st.map → c ∉ st.delete_list →
      c ∉ ((keys.foldl merged_step st).delete_list) := by
  induction keys with
  | nil => intro st _ h3; exact h3
  | cons k t ih =>
    intro st hpres h3
    rw [List.foldl_cons]
    have hpres2 : MPres m (merged_step st k).map :=
      mpres_trans hpres (merged_step_mpres st k)
    refine ih (merged_step st k) hpres2 ?_
    cases hck : alookup st.map k with
    | none => rw [merged_step_eq_skip hck]; exact h3
    | some cur =>
      cases hcro : cur.romof with
      | none => rw [merged_step_eq_root hck hcro]; exact h3
      | some pn =>
        cases hpk : alookup st.map pn with
        | none => rw [merged_step_eq_dangling hck hcro hpk]; exact h3
        | some parent =>
          cases hbp : parent.isbios with
          | true => rw [merged_step_eq_bios hck hcro hpk hbp]; exact h3
          | false =>
            rw [merged_step_eq_merge hck hcro hpk hbp]
            dsimp only
            intro hmem
            rcases List.mem_append.mp hmem with hmem | hmem
            · exact h3 hmem
            · have hkc : c = k := by simpa using hmem
              obtain ⟨y, hy, hyro, _, _⟩ := hpres.look c crs hc
              rw [← hkc, hy] at hck
              have hcy : cur = y := (Option.some.inj hck).symm
              have hpnp : pn = p := by
                have : y.romof = some p := by rw [hyro, hro]
                rw [hcy, this] at hcro
                exact (Option.some.inj hcro).symm
              obtain ⟨z, hz, _, hzbi, _⟩ := hpres.look p prs hp
              rw [hpnp, hz] at hpk
              have hpz : parent = z := (Option.some.inj hpk).symm
              rw [hpz, hzbi, hb] at hbp
              cases hbp

/-- A clone whose parent carries `isbios` is never merged away: it stays
in the reconciled map. -/
theorem merged_bios_kept (m : RomMap) {c p : String} {crs prs : Romset}
    (hc : alookup m c = some crs) (hro : crs.romof = some p)
    (hp : alookup m p = some prs) (hb : prs.isbios = true) :
    (alookup (create_merged_checklist m).1 c).isSome = true := by
  have hnd := merged_fold_bios_not_dl m c p crs prs hc hro hp hb (m.map Prod.fst)
    (⟨m, [], []⟩ : MState) (mpres_refl m) (by simp)
  have presS : MPres m ((m.map Prod.fst).foldl merged_step (⟨m, [], []⟩ : MState)).map :=
    merged_fold_mpres (m.map Prod.fst) (⟨m, [], []⟩ : MState)
  obtain ⟨y, hy, _, _, _⟩ := presS.look c crs hc
  rw [create_merged_eq_fold]
  dsimp only
  rw [erase_fold_alookup, if_neg hnd, hy]
  rfl

/-! ## Concrete catalogs and stores used as test inputs -/

/-- Scenario B and C catalog: root parent `p` with rom `a`, clone `c`
with roms `a` and `b`. -/
def pScB : Romset := ⟨none, false, [("a", "d1")]⟩

def cScB : Romset := ⟨some "p", false, [("a", "d1"), ("b", "d2")]⟩

def mScB : RomMap := [("p", pScB), ("c", cScB)]

/-- A bios item and a clone declaring it as parent. -/
def mBios : RomMap := [("b", ⟨none, true, []⟩), ("c", ⟨some "b", false, [("a", "1")]⟩)]

/-- A merged-convention chain: `c` is a clone of `p`, which is itself a
clone of the root `g`; only `c` holds a rom. -/
def mChainM : RomMap :=
  [("g", ⟨none, false, []⟩),
   ("p", ⟨some "g", false, []⟩),
   ("c", ⟨some "p", false, [("a", "1")]⟩)]

/-- A three level chain: `c` is a clone of `p`, which is a clone of `g`;
rom `a` is shared by all three with one digest. -/
def mChain : RomMap :=
  [("g", ⟨none, false, [("a", "d")]⟩),
   ("p", ⟨some "g", false, [("a", "d"), ("b", "e")]⟩),
   ("c", ⟨some "p", false, [("a", "d"), ("b", "e")]⟩)]

/-- Scenario D catalog and store: item `X` expects `a` and `b`; the zip
holds `a` with the right digest and `b` with a wrong one. -/
def mScD : RomMap := [("X", ⟨none, false, [("a", "d1"), ("b", "d2")]⟩)]

def storeScD : String → ZipContent :=
  fun n => if n = "X" then ZipContent.readable [("a", "d1"), ("b", "wrong")] else ZipContent.absent

/-- A parent and clone disagreeing on the digest of rom `r`. -/
def pC4v : Romset := ⟨none, false, [("r", "d1")]⟩

def cC4v : Romset := ⟨some "p", false, [("r", "dx")]⟩

def mC4 : RomMap := [("p", pC4v), ("c", cC4v)]

/-- A parent and clone whose digests for rom `r` are the given strings. -/
def conflictPair (d e : String) : RomMap :=
  [("p", ⟨none, false, [("r", d)]⟩), ("c", ⟨some "p", false, [("r", e)]⟩)]

/-- One item expecting rom `r` with the given digest. -/
def checkItem (d : String) : RomMap := [("x", ⟨none, false, [("r", d)]⟩)]

/-- A store whose zip for `x` holds rom `r` with the given digest. -/
def checkStore (e : String) : String → ZipContent :=
  fun n => if n = "x" then ZipContent.readable [("r", e)] else ZipContent.absent

def mC6 : RomMap := [("x", ⟨none, false, []⟩), ("y", ⟨none, false, []⟩)]

def storeC6 : String → ZipContent :=
  fun n => if n = "x" then ZipContent.unreadable "boom" else ZipContent.absent

def storeAllAbsent : String → ZipContent := fun _ => ZipContent.absent

/-- An item with a dangling parent that receives a merge from a clone. -/
def mC9x : RomMap := [("d", ⟨some "ghost", false, []⟩), ("e", ⟨some "d", false, [("a", "1")]⟩)]

def cC9 : Romset := ⟨some "ghost", false, [("a", "1")]⟩

def mC9w : RomMap := [("c", cC9)]

def mC10 : RomMap := [("x", ⟨none, false, [("r", "d")]⟩)]

def storeC10 : String → ZipContent :=
  fun n => if n = "x" then ZipContent.readable [("r", "d")] else ZipContent.absent

/-! ## Claim C1 -/

/-- C1 counterexample, two parts. In `mBios` the clone `c` declares the
bios item `b` as parent: the claim states that the clone is still merged
and its name absent from the effective catalog, but the code skips
clones of bios parents, so `c` is still present and nothing was merged
into `b`. In `mChainM` the parent `p` of clone `c` is itself a clone of
`g` and is therefore merged away: `p` has no effective set at all, so
the rom `a` of `c` cannot be "present in the parent's effective set" —
it vanishes from the effective catalog entirely. -/
theorem c1_counterexample :
    ((alookup (create_merged_checklist mBios).1 "c").isSome = true ∧
     (alookup (create_merged_checklist mBios).1 "b").map Romset.rom_digests = some []) ∧
    (alookup (create_merged_checklist mChainM).1 "p" = none ∧
     alookup (create_merged_checklist mChainM).1 "c" = none ∧
     (alookup (create_merged_checklist mChainM).1 "g").map Romset.rom_digests = some []) := by
  decide

/-- C1 (amended): under the merged convention, a clone whose parent
resolves is merged away only when the parent is not flagged `isbios`: if
the parent is a bios the clone stays in the effective catalog. If the
parent is not a bios, the clone's name is always absent from the
effective catalog (deletions are deferred, so the parent resolves at the
clone's step even when it is itself a clone), and whenever the parent's
name is still present in the effective catalog, every rom name of the
clone's original set appears in the parent's effective set. -/
theorem c1_merged_parent_contains (m : RomMap) (c p : String) (crs prs : Romset)
    (hc : alookup m c = some crs) (hro : crs.romof = some p)
    (hp : alookup m p = some prs) :
    (prs.isbios = true → (alookup (create_merged_checklist m).1 c).isSome = true) ∧
    (prs.isbios = false →
      alookup (create_merged_checklist m).1 c = none ∧
      (∀ q, alookup (create_merged_checklist m).1 p = some q →
        ∀ rn v, alookup crs.rom_digests rn = some v → (alookup q.rom_digests rn).isSome)) := by
  constructor
  · intro hb
    exact merged_bios_kept m hc hro hp hb
  · intro hb
    obtain ⟨h1, h2⟩ := merged_run_core_general m hc hro hp hb
    exact ⟨h1, fun q hq rn v hv => (h2 q hq).2 rn v hv⟩

/-- C1 witness: Scenario B — after merged reconciliation of `mScB` the
clone is gone and the surviving parent holds an entry for rom `b`. -/
theorem c1_witness :
    alookup (create_merged_checklist mScB).1 "c" = none ∧
    (∃ q, alookup (create_merged_checklist mScB).1 "p" = some q ∧
      (alookup q.rom_digests "b").isSome) := by
  obtain ⟨h1, h2⟩ :=
    (c1_merged_parent_contains mScB "c" "p" cScB pScB (by decide) rfl (by decide)).2 rfl
  have hq : alookup (create_merged_checklist mScB).1 "p" =
      some ⟨none, false, [("a", "d1"), ("b", "d2")]⟩ := by decide
  exact ⟨h1, ⟨_, hq, h2 _ hq "b" "d2" (by decide)⟩⟩

/-! ## Claim C2 -/

/-- C2 counterexample: in the chain `mChain` the parent `p` is processed
before the clone `c`, so `p` has already lost rom `a` when `c` is
reconciled; rom `a` therefore survives in `c` although the original set
of `p` holds `a` with an equal digest, contradicting the claim. -/
theorem c2_counterexample :
    (alookup (create_split_checklist mChain).1 "c").map (fun r => alookup r.rom_digests "a") =
      some (some "d") ∧
    (alookup mChain "p").map (fun r => alookup r.rom_digests "a") = some (some "d") := by
  decide

/-- C2 (amended): under the split convention, for a clone whose parent
resolves and is itself a root (so its set cannot have changed before the
clone is visited), exactly the rom names of the parent set are removed
from the clone — with equal digests silently, with differing digests
after reporting the conflict — and the parent is untouched. -/
theorem c2_split_delta (m : RomMap) (c p : String) (crs prs : Romset)
    (hn : (m.map Prod.fst).Nodup)
    (hc : alookup m c = some crs) (hro : crs.romof = some p)
    (hp : alookup m p = some prs) (hroot : prs.romof = none) :
    ∃ crs2, alookup (create_split_checklist m).1 c = some crs2 ∧
      (∀ rn d, alookup prs.rom_digests rn = some d → alookup crs2.rom_digests rn = none) ∧
      (∀ rn, alookup prs.rom_digests rn = none →
        alookup crs2.rom_digests rn = alookup crs.rom_digests rn) ∧
      (∀ rn d dc, alookup prs.rom_digests rn = some d → alookup crs.rom_digests rn = some dc →
        d ≠ dc → Warning.digestConflict p c rn ∈ (create_split_checklist m).2) ∧
      alookup (create_split_checklist m).1 p = some prs := by
  obtain ⟨h1, h2, h3⟩ := split_run_core m hn hc hro hp hroot
  refine ⟨_, h1, ?_, ?_, ?_, h2⟩
  · intro rn d hd
    show alookup (strip_digests p c prs.rom_digests crs.rom_digests).1 rn = none
    exact strip_none p c _ _ rn d hd
  · intro rn hd
    show alookup (strip_digests p c prs.rom_digests crs.rom_digests).1 rn =
      alookup crs.rom_digests rn
    exact strip_pres p c _ _ rn hd
  · intro rn d dc hd hcd hne
    exact h3 _ (strip_conflict p c _ _ rn d dc hd hcd hne)

/-- C2 witness: Scenario C — after split reconciliation of `mScB` the
clone has lost rom `a` and kept rom `b`. -/
theorem c2_witness :
    (alookup (create_split_checklist mScB).1 "c").map (fun r => alookup r.rom_digests "a") =
      some none ∧
    (alookup (create_split_checklist mScB).1 "c").map (fun r => alookup r.rom_digests "b") =
      some (some "d2") := by
  obtain ⟨crs2, hL, hnone, hpres, _, _⟩ :=
    c2_split_delta mScB "c" "p" cScB pScB (by decide) (by decide) rfl (by decide) rfl
  rw [hL]
  constructor
  · show some (alookup crs2.rom_digests "a") = some none
    rw [hnone "a" "d1" (by decide)]
  · show some (alookup crs2.rom_digests "b") = some (some "d2")
    rw [hpres "b" (by decide)]
    decide

/-! ## Claim C3 -/

/-- C3: at the Scenario D input the verifier appends the bad rom tuple
in the order (rom name, digest found in the zip, digest expected by the
datfile) — that is (member, actual, expected) — while both the spec and
the report header of `display_stats` announce (member, expected, actual).
The code contradicts its own output legend. -/
theorem c3_tuple_order :
    check_roms mScD storeScD =
      Except.ok (mScD,
        { missing_files := [], bad_files := ["X"], missing_roms := [],
          bad_roms := [("X", [("b", "wrong", "d2")])] }) := rfl

/-! ## Claim C4 -/

/-- C4: under the merged convention, when a clone rom is already present
in the parent set with a different digest, the parent keeps its original
digest value (the clone digest is discarded) and the conflict is reported
as a warning while reconciliation completes. Stated for a parent that is
a non-bios root, so that it survives into the effective catalog. -/
theorem c4_parent_digest_wins (m : RomMap) (c p rn d dc : String) (crs prs : Romset)
    (hc : alookup m c = some crs) (hro : crs.romof = some p)
    (hp : alookup m p = some prs) (hbios : prs.isbios = false) (hroot : prs.romof = none)
    (hpd : alookup prs.rom_digests rn = some d) (hcd : alookup crs.rom_digests rn = some dc)
    (hne : d ≠ dc) :
    (∃ q, alookup (create_merged_checklist m).1 p = some q ∧
       alookup q.rom_digests rn = some d) ∧
    Warning.digestConflict p c rn ∈ (create_merged_checklist m).2 := by
  obtain ⟨_, ⟨q, hq, _, _, hdl, _⟩, hconf⟩ := merged_run_core m hc hro hp hbios hroot
  exact ⟨⟨q, hq, hdl rn d hpd⟩, hconf rn d dc hpd hcd hne⟩

/-- C4 witness: in `mC4` parent and clone disagree on rom `r`; the
parent keeps digest `d1` and the conflict is reported. -/
theorem c4_witness :
    (∃ q, alookup (create_merged_checklist mC4).1 "p" = some q ∧
       alookup q.rom_digests "r" = some "d1") ∧
    Warning.digestConflict "p" "c" "r" ∈ (create_merged_checklist mC4).2 :=
  c4_parent_digest_wins mC4 "c" "p" "r" "d1" "dx" cC4v pC4v (by decide) rfl (by decide)
    rfl rfl (by decide) (by decide) (by decide)

/-! ## Claim C5 -/

/-- C5 counterexample: the digests `AB` and `ab` are equal after case
normalization (their characters agree after lowering), yet the merged
reconciliation reports a conflict for them — digest comparison in the
code is exact, not case-insensitive. -/
theorem c5_counterexample :
    Warning.digestConflict "p" "c" "r" ∈ (create_merged_checklist (conflictPair "AB" "ab")).2 ∧
    "AB".data.map Char.toLower = "ab".data.map Char.toLower := by
  refine ⟨by decide, by decide⟩

/-- C5 (amended): every digest comparison — conflict detection in both
non-independent conventions and the expected versus actual comparison of
the verifier — is exact string comparison with no case normalization: a
pair of digests is reported exactly when the strings differ. -/
theorem c5_exact_comparison : ∀ d e : String,
    ((Warning.digestConflict "p" "c" "r" ∈ (create_merged_checklist (conflictPair d e)).2) ↔
      d ≠ e) ∧
    ((Warning.digestConflict "p" "c" "r" ∈ (create_split_checklist (conflictPair d e)).2) ↔
      d ≠ e) ∧
    ((check_roms (checkItem d) (checkStore e)).map (fun pr => pr.2.bad_roms) =
      Except.ok (if d = e then [] else [("x", [("r", e, d)])])) := by
  intro d e
  refine ⟨?_, ?_, ?_⟩ <;>
    by_cases h : d = e <;>
      simp [conflictPair, checkItem, checkStore, create_merged_checklist, create_split_checklist,
        check_roms, merged_step, split_step, check_step, check_member, merge_digests,
        strip_digests, alookup, aupdate, aerase, appendAt, setAdd, h, Except.map,
        create_merged_eq_fold]
  · exact fun hh => h hh.symm

/-! ## Claim C6 -/

/-- C6 counterexample: with an unreadable zip for `x` the whole run
aborts with the propagated error and item `y` is never examined, whereas
with an absent zip the run completes and reports both items missing. The
claim that an unreadable container is treated like an absent one is
false. -/
theorem c6_counterexample :
    check_roms mC6 storeC6 = Except.error "boom" ∧
    check_roms mC6 storeAllAbsent =
      Except.ok (mC6,
        { missing_files := ["x", "y"], bad_files := [], missing_roms := [],
          bad_roms := [] }) :=
  ⟨rfl, rfl⟩

/-- C6 (amended): if opening or reading the container of any catalog
item raises, the exception propagates out of the verifier: the whole run
ends with that error and no report is produced. -/
theorem c6_unreadable_aborts (m : RomMap) (store : String → ZipContent) (n msg : String)
    (h1 : n ∈ m.map Prod.fst) (h2 : store n = ZipContent.unreadable msg) :
    ∃ e, check_roms m store = Except.error e :=
  check_fold_unreadable store (m.map Prod.fst)
    (Except.ok (m, ⟨[], [], [], []⟩)) n msg h1 h2

/-- C6 witness: the unreadable zip of `x` makes the run abort. -/
theorem c6_witness :
    ("x" ∈ mC6.map Prod.fst) ∧ (∃ e, check_roms mC6 storeC6 = Except.error e) :=
  ⟨by decide, c6_unreadable_aborts mC6 storeC6 "x" "boom" (by decide) rfl⟩

/-! ## Claim C7 -/

theorem romfile_merged_fst (m : RomMap) :
    (create_romfile_checklist m "merged").1 = (create_merged_checklist m).1 := rfl

theorem romfile_split_fst (m : RomMap) :
    (create_romfile_checklist m "split").1 = (create_split_checklist m).1 := rfl

theorem romfile_nonmerged_fst (m : RomMap) :
    (create_romfile_checklist m "nonmerged").1 = m := rfl

/-- C7: for every catalog with unique item names and every storage
convention, applying the reconciler twice yields the same effective
catalog as applying it once. -/
theorem c7_reconciler_idempotent (m : RomMap) (t : String)
    (hn : (m.map Prod.fst).Nodup)
    (ht : t = "merged" ∨ t = "split" ∨ t = "nonmerged") :
    (create_romfile_checklist (create_romfile_checklist m t).1 t).1 =
      (create_romfile_checklist m t).1 := by
  rcases ht with rfl | rfl | rfl
  · rw [romfile_merged_fst, romfile_merged_fst, merged_idem]
  · rw [romfile_split_fst, romfile_split_fst, split_idem m hn]
  · rw [romfile_nonmerged_fst, romfile_nonmerged_fst]

/-- C7 witness: reconciling `mScB` twice as a merged set changes nothing
the second time. -/
theorem c7_witness :
    ((mScB.map Prod.fst).Nodup) ∧
    (create_romfile_checklist (create_romfile_checklist mScB "merged").1 "merged").1 =
      (create_romfile_checklist mScB "merged").1 :=
  ⟨by decide, c7_reconciler_idempotent mScB "merged" (by decide) (Or.inl rfl)⟩

/-! ## Claim C8 -/

/-- C8: under the `nonmerged` convention the reconciler is the identity:
the returned map is the raw catalog itself (same keys, same per-item
digest dicts) and no warning is emitted. -/
theorem c8_nonmerged_identity (m : RomMap) :
    create_romfile_checklist m "nonmerged" = (m, []) := rfl

/-! ## Claim C9 -/

/-- C9 counterexample: item `d` has a dangling parent, so the claim says
its members stay unchanged; but its clone `e` merges rom `a` into it, so
the effective set of `d` differs from its original (empty) set. -/
theorem c9_counterexample :
    (alookup (create_merged_checklist mC9x).1 "d").map Romset.rom_digests = some [("a", "1")] ∧
    (alookup mC9x "d").map Romset.rom_digests = some [] := by
  decide

/-- C9 (amended): under both non-independent conventions an item whose
parent does not resolve is reported as a dangling reference and kept in
the effective catalog; its record is untouched under the split
convention, and under the merged convention provided no other item
declares it as parent. -/
theorem c9_dangling_kept (m : RomMap) (c p : String) (crs : Romset)
    (hc : alookup m c = some crs) (hro : crs.romof = some p)
    (hp : alookup m p = none)
    (hni : ∀ e ∈ m, e.2.romof ≠ some c) :
    (alookup (create_split_checklist m).1 c = some crs ∧
     Warning.danglingParent c p ∈ (create_split_checklist m).2) ∧
    (alookup (create_merged_checklist m).1 c = some crs ∧
     Warning.danglingParent c p ∈ (create_merged_checklist m).2) :=
  ⟨split_dangling_kept m hc hro hp, merged_dangling_kept m hc hro hp hni⟩

/-- C9 witness: the single item of `mC9w` has a dangling parent; it is
kept unchanged and the dangling reference is reported by both
conventions. -/
theorem c9_witness :
    (alookup (create_split_checklist mC9w).1 "c" = some cC9 ∧
     Warning.danglingParent "c" "ghost" ∈ (create_split_checklist mC9w).2) ∧
    (alookup (create_merged_checklist mC9w).1 "c" = some cC9 ∧
     Warning.danglingParent "c" "ghost" ∈ (create_merged_checklist mC9w).2) :=
  c9_dangling_kept mC9w "c" "ghost" cC9 (by decide) rfl (by decide) (by decide)

/-! ## Claim C10 -/

/-- C10: the verifier never modifies the effective catalog it consumes:
whenever `check_roms` completes, the rom map it hands back is the one it
was given, and the report lives in freshly built structures. -/
theorem c10_verifier_frame (m : RomMap) (store : String → ZipContent)
    (mOut : RomMap) (st : Stats)
    (h : check_roms m store = Except.ok (mOut, st)) : mOut = m :=
  check_fold_frame store (m.map Prod.fst) m ⟨[], [], [], []⟩ (mOut, st) h

/-- C10 witness: a concrete run that completes returns the input map. -/
theorem c10_witness :
    check_roms mC10 storeC10 =
      Except.ok (mC10,
        { missing_files := [], bad_files := [], missing_roms := [], bad_roms := [] }) ∧
    mC10 = mC10 :=
  ⟨rfl, c10_verifier_frame mC10 storeC10 mC10 ⟨[], [], [], []⟩ rfl⟩
